import Mathlib

/-!
Shallow embedding of the goblin connection pool
(`src/goblin/driver/pool.py`).

Connections are stored in a list `conns`; a `PooledConnection` is
referred to by its index into that store.  The two `collections.deque`
fields `_available` and `_acquired` are modelled as lists of indices
with the head playing the role of the left end of the deque, so
`popleft` is taking the head and `append` is `++ [i]`.

The `Connection` class itself is not part of the modelled sources (the
pool only opens and closes it through the factory call
`connection.Connection.open`), so its observable interface is modelled
from the spec: an open factory returning a non-closed connection that
records the parameters it was opened with, a close coroutine that marks
it closed, and a `closed` flag that is set once and never cleared.

Machine-integer subtleties do not arise: `times_acquired` is a Python
`int` (arbitrary precision) and is modelled as `Int`, so the
`decrement_acquired` in `release` is genuine subtraction.
-/

/-- The per-connection parameters a `Connection` is opened with by
`ConnectionPool._get_connection` (`url`, `loop` and `ssl_context` are
fixed for the whole pool and never consulted by the pool logic, so they
are omitted). -/
structure ConnOptions where
  username : String
  password : String
  lang : String
  traversal_source : Option (List (String × String))
  max_inflight : Nat
  response_timeout : Option Nat
  deriving DecidableEq

/-- Modelled from the spec: the external `Connection` transport object.
Its `closed` flag is set once — by `Connection.close` or by the server
side dropping the session — and never cleared; `Connection.open`
returns a non-closed connection recording the options it was opened
with. -/
structure Connection where
  closed : Bool
  opts : ConnOptions
  deriving DecidableEq

/-- `PooledConnection`: wraps one `Connection` together with the
`_times_acquired` share counter. -/
structure PooledConnection where
  conn : Connection
  times_acquired : Int
  /-- Ghost field, not part of the Python object: the number of
  outstanding acquire handles callers hold on this connection (each
  successful `acquire` grants exactly one right to call `release`).
  It never influences the pool's behaviour; it only delimits the
  protocol-respecting call sequences in the reachability relation. -/
  handles : Nat
  deriving DecidableEq

/-- `ConnectionPool` state: the connection store, the two deques (as
index lists), the constructor configuration, and a ghost counter of
scheduled `_notify` tasks. -/
structure ConnectionPool where
  conns : List PooledConnection
  available : List Nat
  acquired : List Nat
  username : String
  password : String
  lang : String
  traversal_source : Option (List (String × String))
  response_timeout : Option Nat
  max_conns : Nat
  min_conns : Nat
  max_times_acquired : Nat
  max_inflight : Nat
  /-- Ghost counter: how many `_notify` tasks `release` has scheduled
  so far via `loop.create_task`. -/
  notifications : Nat
  deriving DecidableEq

/-- `PooledConnection.closed` of the connection at index `i` (delegates
to the underlying `Connection.closed`). -/
def closedOf (cs : List PooledConnection) (i : Nat) : Bool :=
  match cs.get? i with
  | some c => c.conn.closed
  | none => false

/-- `PooledConnection.times_acquired` of the connection at index `i`. -/
def timesOf (cs : List PooledConnection) (i : Nat) : Int :=
  match cs.get? i with
  | some c => c.times_acquired
  | none => 0

/-- Ghost accessor: outstanding caller handles of the connection at
index `i`. -/
def handlesOf (cs : List PooledConnection) (i : Nat) : Nat :=
  match cs.get? i with
  | some c => c.handles
  | none => 0

/-- The options the connection at index `i` was opened with. -/
def optsOf (cs : List PooledConnection) (i : Nat) : Option ConnOptions :=
  (cs.get? i).map (fun c => c.conn.opts)

/-- Point update of the connection store (attribute mutation on the
`PooledConnection` object at index `i`). -/
def modifyConn (cs : List PooledConnection) (i : Nat)
    (f : PooledConnection → PooledConnection) : List PooledConnection :=
  match cs.get? i with
  | some c => cs.set i (f c)
  | none => cs

/-- Python `x or d` for an optional string argument: `None` and the
empty string are falsy, everything else is passed through. -/
def pyOrStr (x : Option String) (d : String) : String :=
  match x with
  | some s => if s = "" then d else s
  | none => d

/-- Python `x or d` for an optional integer argument with a plain
integer default: `None` and `0` are falsy. -/
def pyOrNat (x : Option Nat) (d : Nat) : Nat :=
  match x with
  | some n => if n = 0 then d else n
  | none => d

/-- Python `x or d` for an optional integer argument whose default may
itself be `None` (the pool's `response_timeout`). -/
def pyOrOptNat (x : Option Nat) (d : Option Nat) : Option Nat :=
  match x with
  | some n => if n = 0 then d else some n
  | none => d

/-- Python `x or d` for the `traversal_source` dict argument: `None`
and the empty dict are falsy. -/
def pyOrTs (x : Option (List (String × String)))
    (d : Option (List (String × String))) : Option (List (String × String)) :=
  match x with
  | some t => if t = [] then d else some t
  | none => d

/-- The keyword arguments of `ConnectionPool.acquire`; every one
defaults to `None` in the Python signature. -/
structure AcquireArgs where
  username : Option String
  password : Option String
  lang : Option String
  traversal_source : Option (List (String × String))
  max_inflight : Option Nat
  response_timeout : Option Nat
  deriving DecidableEq

/-- An `acquire()` call with every keyword argument left at `None`. -/
def AcquireArgs.defaults : AcquireArgs := ⟨none, none, none, none, none, none⟩

/-- The six `x = x or self._x` lines at the top of
`ConnectionPool.acquire`, combining per-call overrides with the pool
defaults. -/
def effectiveOpts (p : ConnectionPool) (a : AcquireArgs) : ConnOptions :=
  { username := pyOrStr a.username p.username
    password := pyOrStr a.password p.password
    lang := pyOrStr a.lang p.lang
    traversal_source := pyOrTs a.traversal_source p.traversal_source
    max_inflight := pyOrNat a.max_inflight p.max_inflight
    response_timeout := pyOrOptNat a.response_timeout p.response_timeout }

/-- Modelled from the spec: the `connection.Connection.open` factory —
it yields an opened (hence non-closed) transport session carrying the
parameters it was opened with. -/
def Connection.open (o : ConnOptions) : Connection :=
  { closed := false, opts := o }

/-- `ConnectionPool._get_connection`: open a `Connection` through the
factory and wrap it in a fresh `PooledConnection` (share counter 0). -/
def ConnectionPool.get_connection (o : ConnOptions) : PooledConnection :=
  { conn := Connection.open o, times_acquired := 0, handles := 0 }

/-- The argument tuple `init_pool` passes to `_get_connection`: the raw
pool defaults, with no falsy-replacement involved. -/
def ConnectionPool.default_opts (p : ConnectionPool) : ConnOptions :=
  { username := p.username, password := p.password, lang := p.lang
    traversal_source := p.traversal_source
    max_inflight := p.max_inflight
    response_timeout := p.response_timeout }

/-- One iteration of the `init_pool` loop: open a connection with the
pool defaults and append it to `_available`. -/
def ConnectionPool.add_fresh (p : ConnectionPool) : ConnectionPool :=
  { p with
    conns := p.conns ++ [ConnectionPool.get_connection p.default_opts]
    available := p.available ++ [p.conns.length] }

/-- The `for i in range(self._min_conns)` loop of `init_pool`,
opening the connections one at a time. -/
def ConnectionPool.open_loop : ConnectionPool → Nat → ConnectionPool
  | p, 0 => p
  | p, n + 1 => ConnectionPool.open_loop p.add_fresh n

/-- `ConnectionPool.init_pool`: open `min_conns` connections
sequentially and place them in `_available`. -/
def ConnectionPool.init_pool (p : ConnectionPool) : ConnectionPool :=
  p.open_loop p.min_conns

/-- Ghost update: the caller spends one release right by calling
`release`. -/
def spend_handle (c : PooledConnection) : PooledConnection :=
  { c with handles := c.handles - 1 }

/-- `PooledConnection.decrement_acquired`. -/
def dec_times (c : PooledConnection) : PooledConnection :=
  { c with times_acquired := c.times_acquired - 1 }

/-- The underlying `Connection` transitions to closed (used both by a
successful `Connection.close` and by the environment dropping the
session). -/
def close_mark (c : PooledConnection) : PooledConnection :=
  { c with conn := { c.conn with closed := true } }

/-- Result of `ConnectionPool.release`: the new pool state together
with whether the call raised (`deque.remove` raises `ValueError` when
the connection is not present in `_acquired`).  On a raise the
mutations performed before the raising line are kept, exactly as in
Python. -/
structure ReleaseResult where
  pool : ConnectionPool
  error : Bool
  deriving DecidableEq

/-- `ConnectionPool.release`.  The ghost `handles` field of the
released connection is decremented first: the caller spends its release
right by making the call, whatever the outcome.  Then, following the
source: if the connection is closed, remove it from `_acquired`;
otherwise decrement the share counter and, when it reaches zero, move
the connection from `_acquired` to `_available`.  On every non-raising
path a single `_notify` task is scheduled. -/
def ConnectionPool.release (p : ConnectionPool) (i : Nat) : ReleaseResult :=
  if closedOf (modifyConn p.conns i spend_handle) i then
    if i ∈ p.acquired then
      { pool := { p with
          conns := modifyConn p.conns i spend_handle
          acquired := p.acquired.erase i
          notifications := p.notifications + 1 }
        error := false }
    else
      { pool := { p with conns := modifyConn p.conns i spend_handle }
        error := true }
  else
    if timesOf (modifyConn (modifyConn p.conns i spend_handle) i dec_times) i = 0 then
      if i ∈ p.acquired then
        { pool := { p with
            conns := modifyConn (modifyConn p.conns i spend_handle) i dec_times
            acquired := p.acquired.erase i
            available := p.available ++ [i]
            notifications := p.notifications + 1 }
          error := false }
      else
        { pool := { p with
            conns := modifyConn (modifyConn p.conns i spend_handle) i dec_times }
          error := true }
    else
      { pool := { p with
          conns := modifyConn (modifyConn p.conns i spend_handle) i dec_times
          notifications := p.notifications + 1 }
        error := false }

/-- Which of the three acquire branches produced the returned
connection. -/
inductive AcqBranch where
  | reuse
  | create
  | multiplex
  deriving DecidableEq

/-- Suspension and lock events of one coroutine, used to record where
network awaits happen relative to the `async with self._condition`
critical section. -/
inductive Ev where
  | lockAcq
  | lockRel
  | netOpen
  | netClose
  deriving DecidableEq

/-- Result of one `acquire` attempt: the new pool state, the returned
connection index (`none` when the attempt falls through to
`await self._condition.wait()`), the branch taken, and the event
trace. -/
structure AcquireResult where
  pool : ConnectionPool
  conn : Option Nat
  branch : Option AcqBranch
  events : List Ev
  deriving DecidableEq

/-- The `while self._available:` reuse scan: pop entries from the left
until a non-closed one is found; closed entries are dropped on the
floor.  Returns the found index and the remaining deque. -/
def scan_available (cs : List PooledConnection) : List Nat → Option (Nat × List Nat)
  | [] => none
  | i :: rest => if closedOf cs i then scan_available cs rest else some (i, rest)

/-- The `for x in range(len(self._acquired))` multiplex pass: pop each
entry from the left, rotate it to the back; the first entry whose
share counter is below `max_times_acquired` is selected (the caller
then increments it); `acc` holds the entries already rotated to the
back.  Returns the selected index, if any, together with the deque
contents after the pass. -/
def multiplex_scan (cs : List PooledConnection) (maxTA : Nat) :
    List Nat → List Nat → Option Nat × List Nat
  | [], acc => (none, acc)
  | i :: todo, acc =>
      if timesOf cs i < (maxTA : Int) then (some i, todo ++ acc ++ [i])
      else multiplex_scan cs maxTA todo (acc ++ [i])

/-- `increment_acquired` on a returned connection, together with the
ghost grant of one release handle to the caller. -/
def acquire_mark (c : PooledConnection) : PooledConnection :=
  { c with times_acquired := c.times_acquired + 1, handles := c.handles + 1 }

/-- One attempt of `ConnectionPool.acquire` (one pass of the
`while True` loop under `async with self._condition`): the reuse scan,
then the create branch when `len(self._acquired) < self._max_conns`,
then the multiplex pass, else fall through to the condition wait.  The
event trace records that the whole attempt runs inside the condition
lock and that the create branch awaits the factory open at that point
of the source. -/
def ConnectionPool.acquire (p : ConnectionPool) (a : AcquireArgs) : AcquireResult :=
  let o := effectiveOpts p a
  match scan_available p.conns p.available with
  | some (i, rest) =>
      { pool := { p with
          conns := modifyConn p.conns i acquire_mark
          available := rest
          acquired := p.acquired ++ [i] }
        conn := some i
        branch := some AcqBranch.reuse
        events := [Ev.lockAcq, Ev.lockRel] }
  | none =>
      if p.acquired.length < p.max_conns then
        { pool := { p with
            conns := p.conns ++ [acquire_mark (ConnectionPool.get_connection o)]
            available := []
            acquired := p.acquired ++ [p.conns.length] }
          conn := some p.conns.length
          branch := some AcqBranch.create
          events := [Ev.lockAcq, Ev.netOpen, Ev.lockRel] }
      else
        match multiplex_scan p.conns p.max_times_acquired p.acquired [] with
        | (some i, acq) =>
            { pool := { p with
                conns := modifyConn p.conns i acquire_mark
                available := []
                acquired := acq }
              conn := some i
              branch := some AcqBranch.multiplex
              events := [Ev.lockAcq, Ev.lockRel] }
        | (none, acq) =>
            { pool := { p with available := [], acquired := acq }
              conn := none
              branch := none
              events := [Ev.lockAcq, Ev.lockRel] }

/-- Modelled from the spec: one underlying `Connection.close`; on
success the connection starts reporting closed, and `fails` tells which
connections' close coroutines raise instead (the spec's close-time
failures; nothing in the modelled sources constrains how a close can
fail, so a failing close is modelled as leaving the flag as it was). -/
def close_conn (fails : Nat → Bool) (cs : List PooledConnection) (i : Nat) :
    List PooledConnection :=
  if fails i then cs
  else modifyConn cs i close_mark

/-- Result of `ConnectionPool.close`: the new pool state, whether
`asyncio.gather` propagated an underlying close failure (it is called
without `return_exceptions`, so any failure among the waiters raises
out of `close`; the other close tasks still run), and the event
trace. -/
structure CloseResult where
  pool : ConnectionPool
  error : Bool
  events : List Ev

/-- `ConnectionPool.close`: pop every connection out of `_available`
and `_acquired`, issue a close on each, and `await asyncio.gather` on
all of them.  `close` never touches the condition lock, so its trace
holds only the network close awaits. -/
def ConnectionPool.close_with (p : ConnectionPool) (fails : Nat → Bool) : CloseResult :=
  let popped := p.available ++ p.acquired
  { pool := { p with
      conns := popped.foldl (close_conn fails) p.conns
      available := []
      acquired := [] }
    error := popped.any (fun i => fails i)
    events := popped.map (fun _ => Ev.netClose) }

/-- `ConnectionPool.close` in the run where every underlying close
succeeds (the benign behaviour of the external transport). -/
def ConnectionPool.close (p : ConnectionPool) : ConnectionPool :=
  (p.close_with (fun _ => false)).pool

/-- Environment transition, not a pool method: the server side drops
the session of connection `i`, whose `Connection` then starts
reporting closed.  This is how stale connections appear in the
collections. -/
def env_close (p : ConnectionPool) (i : Nat) : ConnectionPool :=
  { p with conns := modifyConn p.conns i close_mark }

/-- The `ConnectionPool.__init__` configuration (url, loop and
ssl_context omitted as above). -/
structure PoolConfig where
  username : String
  password : String
  lang : String
  traversal_source : Option (List (String × String))
  response_timeout : Option Nat
  max_conns : Nat
  min_conns : Nat
  max_times_acquired : Nat
  max_inflight : Nat
  deriving DecidableEq

/-- A freshly constructed pool: empty store, empty deques. -/
def initialPool (cfg : PoolConfig) : ConnectionPool :=
  { conns := []
    available := []
    acquired := []
    username := cfg.username
    password := cfg.password
    lang := cfg.lang
    traversal_source := cfg.traversal_source
    response_timeout := cfg.response_timeout
    max_conns := cfg.max_conns
    min_conns := cfg.min_conns
    max_times_acquired := cfg.max_times_acquired
    max_inflight := cfg.max_inflight
    notifications := 0 }

/-- One step of the pool's operation-level transition system: any pool
method invoked as a client may invoke it, plus the environment closing
an underlying connection.  `release` carries the protocol discipline:
a caller only releases a connection it still holds a handle for (one
handle per successful acquire). -/
inductive PoolStep : ConnectionPool → ConnectionPool → Prop where
  | init_pool {p : ConnectionPool} : PoolStep p p.init_pool
  | acquire {p : ConnectionPool} (a : AcquireArgs) : PoolStep p (p.acquire a).pool
  | release {p : ConnectionPool} (i : Nat) (h : 1 ≤ handlesOf p.conns i) :
      PoolStep p (p.release i).pool
  | close {p : ConnectionPool} : PoolStep p p.close
  | env_close {p : ConnectionPool} (i : Nat) : PoolStep p (env_close p i)

/-- Any number of pool steps. -/
def Steps : ConnectionPool → ConnectionPool → Prop :=
  Relation.ReflTransGen PoolStep

/-- Reachability from a freshly constructed pool by any sequence of
`init_pool`, `acquire`, `release` and `close` calls interleaved with
environment closes. -/
def Reachable (cfg : PoolConfig) (p : ConnectionPool) : Prop :=
  Steps (initialPool cfg) p

/-- The same transition system with `init_pool` restricted to a pool
that is not yet tracking any connection (its intended use as the
one-time initializer). -/
inductive PoolStepI : ConnectionPool → ConnectionPool → Prop where
  | init_pool {p : ConnectionPool} (h1 : p.available = []) (h2 : p.acquired = []) :
      PoolStepI p p.init_pool
  | acquire {p : ConnectionPool} (a : AcquireArgs) : PoolStepI p (p.acquire a).pool
  | release {p : ConnectionPool} (i : Nat) (h : 1 ≤ handlesOf p.conns i) :
      PoolStepI p (p.release i).pool
  | close {p : ConnectionPool} : PoolStepI p p.close
  | env_close {p : ConnectionPool} (i : Nat) : PoolStepI p (env_close p i)

/-- Reachability when `init_pool` is only ever applied to an empty
pool. -/
def ReachableI (cfg : PoolConfig) (p : ConnectionPool) : Prop :=
  Relation.ReflTransGen PoolStepI (initialPool cfg) p

/-- Whether some network await in the trace happens while the
coordination lock is held; `d` is the current lock depth. -/
def anyNetUnderLock (d : Nat) : List Ev → Bool
  | [] => false
  | Ev.lockAcq :: r => anyNetUnderLock (d + 1) r
  | Ev.lockRel :: r => anyNetUnderLock (d - 1) r
  | Ev.netOpen :: r => if 0 < d then true else anyNetUnderLock d r
  | Ev.netClose :: r => if 0 < d then true else anyNetUnderLock d r

theorem get?_modifyConn (cs : List PooledConnection) (i : Nat)
    (f : PooledConnection → PooledConnection) (j : Nat) :
    (modifyConn cs i f).get? j = if i = j then (cs.get? j).map f else cs.get? j := by
  unfold modifyConn
  cases h : cs.get? i with
  | none =>
      by_cases hij : i = j
      · subst hij; rw [if_pos rfl, h]; rfl
      · rw [if_neg hij]
  | some c =>
      rw [List.get?_set]
      by_cases hij : i = j
      · subst hij; rw [if_pos rfl, if_pos rfl, h]; rfl
      · rw [if_neg hij, if_neg hij]

theorem length_modifyConn (cs : List PooledConnection) (i : Nat)
    (f : PooledConnection → PooledConnection) :
    (modifyConn cs i f).length = cs.length := by
  unfold modifyConn
  cases h : cs.get? i with
  | none => rfl
  | some c => exact List.length_set cs i (f c)

theorem lt_length_of_get?_some {cs : List PooledConnection} {j : Nat}
    {c : PooledConnection} (h : cs.get? j = some c) : j < cs.length :=
  (List.get?_eq_some.mp h).1

theorem get?_some_of_lt {cs : List PooledConnection} {j : Nat}
    (h : j < cs.length) : ∃ c, cs.get? j = some c := by
  cases hg : cs.get? j with
  | none => exact absurd (List.get?_eq_none.mp hg) (by omega)
  | some c => exact ⟨c, rfl⟩

theorem lt_length_of_closedOf {cs : List PooledConnection} {j : Nat}
    (h : closedOf cs j = true) : j < cs.length := by
  by_contra hlt
  have h0 : cs.get? j = none := List.get?_len_le (by omega)
  have hc : closedOf cs j = false := by unfold closedOf; rw [h0]
  rw [hc] at h
  simp at h

theorem lt_length_of_handlesOf {cs : List PooledConnection} {j : Nat}
    (h : 1 ≤ handlesOf cs j) : j < cs.length := by
  by_contra hlt
  have h0 : cs.get? j = none := List.get?_len_le (by omega)
  have hc : handlesOf cs j = 0 := by unfold handlesOf; rw [h0]
  omega

theorem closedOf_modifyConn_of {f : PooledConnection → PooledConnection}
    (hf : ∀ c, (f c).conn.closed = c.conn.closed)
    (cs : List PooledConnection) (i j : Nat) :
    closedOf (modifyConn cs i f) j = closedOf cs j := by
  unfold closedOf
  rw [get?_modifyConn]
  by_cases hij : i = j
  · subst hij; cases cs.get? i <;> simp [hf]
  · simp [hij]

theorem timesOf_modifyConn_of {f : PooledConnection → PooledConnection}
    (hf : ∀ c, (f c).times_acquired = c.times_acquired)
    (cs : List PooledConnection) (i j : Nat) :
    timesOf (modifyConn cs i f) j = timesOf cs j := by
  unfold timesOf
  rw [get?_modifyConn]
  by_cases hij : i = j
  · subst hij; cases cs.get? i <;> simp [hf]
  · simp [hij]

theorem handlesOf_modifyConn_of {f : PooledConnection → PooledConnection}
    (hf : ∀ c, (f c).handles = c.handles)
    (cs : List PooledConnection) (i j : Nat) :
    handlesOf (modifyConn cs i f) j = handlesOf cs j := by
  unfold handlesOf
  rw [get?_modifyConn]
  by_cases hij : i = j
  · subst hij; cases cs.get? i <;> simp [hf]
  · simp [hij]

theorem optsOf_modifyConn_of {f : PooledConnection → PooledConnection}
    (hf : ∀ c, (f c).conn.opts = c.conn.opts)
    (cs : List PooledConnection) (i j : Nat) :
    optsOf (modifyConn cs i f) j = optsOf cs j := by
  unfold optsOf
  rw [get?_modifyConn]
  by_cases hij : i = j
  · subst hij; cases cs.get? i <;> simp [hf]
  · simp [hij]

theorem closedOf_modifyConn_ne {f : PooledConnection → PooledConnection}
    (cs : List PooledConnection) {i j : Nat} (h : i ≠ j) :
    closedOf (modifyConn cs i f) j = closedOf cs j := by
  unfold closedOf; rw [get?_modifyConn]; simp [h]

theorem timesOf_modifyConn_ne {f : PooledConnection → PooledConnection}
    (cs : List PooledConnection) {i j : Nat} (h : i ≠ j) :
    timesOf (modifyConn cs i f) j = timesOf cs j := by
  unfold timesOf; rw [get?_modifyConn]; simp [h]

theorem handlesOf_modifyConn_ne {f : PooledConnection → PooledConnection}
    (cs : List PooledConnection) {i j : Nat} (h : i ≠ j) :
    handlesOf (modifyConn cs i f) j = handlesOf cs j := by
  unfold handlesOf; rw [get?_modifyConn]; simp [h]

theorem timesOf_modifyConn_mark_self {cs : List PooledConnection} {i : Nat}
    (h : i < cs.length) :
    timesOf (modifyConn cs i acquire_mark) i = timesOf cs i + 1 := by
  obtain ⟨c, hc⟩ := get?_some_of_lt h
  unfold timesOf
  rw [get?_modifyConn, hc]
  simp [acquire_mark]

theorem handlesOf_modifyConn_mark_self {cs : List PooledConnection} {i : Nat}
    (h : i < cs.length) :
    handlesOf (modifyConn cs i acquire_mark) i = handlesOf cs i + 1 := by
  obtain ⟨c, hc⟩ := get?_some_of_lt h
  unfold handlesOf
  rw [get?_modifyConn, hc]
  simp [acquire_mark]

theorem closedOf_modifyConn_mark (cs : List PooledConnection) (i j : Nat) :
    closedOf (modifyConn cs i acquire_mark) j = closedOf cs j :=
  @closedOf_modifyConn_of acquire_mark (fun _ => rfl) cs i j

theorem closedOf_append_left {cs l : List PooledConnection} {j : Nat}
    (h : j < cs.length) : closedOf (cs ++ l) j = closedOf cs j := by
  unfold closedOf; rw [List.get?_append h]

theorem timesOf_append_left {cs l : List PooledConnection} {j : Nat}
    (h : j < cs.length) : timesOf (cs ++ l) j = timesOf cs j := by
  unfold timesOf; rw [List.get?_append h]

theorem handlesOf_append_left {cs l : List PooledConnection} {j : Nat}
    (h : j < cs.length) : handlesOf (cs ++ l) j = handlesOf cs j := by
  unfold handlesOf; rw [List.get?_append h]

theorem optsOf_append_left {cs l : List PooledConnection} {j : Nat}
    (h : j < cs.length) : optsOf (cs ++ l) j = optsOf cs j := by
  unfold optsOf; rw [List.get?_append h]

theorem closedOf_concat_self (cs : List PooledConnection) (c : PooledConnection) :
    closedOf (cs ++ [c]) cs.length = c.conn.closed := by
  unfold closedOf; rw [List.get?_concat_length]

theorem timesOf_concat_self (cs : List PooledConnection) (c : PooledConnection) :
    timesOf (cs ++ [c]) cs.length = c.times_acquired := by
  unfold timesOf; rw [List.get?_concat_length]

theorem handlesOf_concat_self (cs : List PooledConnection) (c : PooledConnection) :
    handlesOf (cs ++ [c]) cs.length = c.handles := by
  unfold handlesOf; rw [List.get?_concat_length]

theorem optsOf_concat_self (cs : List PooledConnection) (c : PooledConnection) :
    optsOf (cs ++ [c]) cs.length = some c.conn.opts := by
  unfold optsOf; rw [List.get?_concat_length]; rfl

theorem scan_available_none (cs : List PooledConnection) :
    ∀ l : List Nat, scan_available cs l = none → ∀ j ∈ l, closedOf cs j = true := by
  intro l
  induction l with
  | nil => intro _ j hj; cases hj
  | cons i rest ih =>
      intro hs j hj
      unfold scan_available at hs
      by_cases hc : closedOf cs i
      · rw [if_pos hc] at hs
        rcases List.mem_cons.mp hj with h | h
        · rw [h]; exact hc
        · exact ih hs j h
      · rw [if_neg hc] at hs
        cases hs

theorem scan_available_some (cs : List PooledConnection) :
    ∀ l : List Nat, ∀ i : Nat, ∀ rest : List Nat,
    scan_available cs l = some (i, rest) →
    ∃ pre, l = pre ++ i :: rest ∧ (∀ j ∈ pre, closedOf cs j = true) ∧
      closedOf cs i = false := by
  intro l
  induction l with
  | nil => intro i rest h; cases h
  | cons k tl ih =>
      intro i rest h
      unfold scan_available at h
      by_cases hc : closedOf cs k
      · rw [if_pos hc] at h
        obtain ⟨pre, hpre, hall, hi⟩ := ih i rest h
        refine ⟨k :: pre, by rw [hpre]; rfl, ?_, hi⟩
        intro j hj
        rcases List.mem_cons.mp hj with h1 | h1
        · rw [h1]; exact hc
        · exact hall j h1
      · rw [if_neg hc] at h
        injection h with h1
        injection h1 with h2 h3
        subst h2; subst h3
        exact ⟨[], rfl, fun j hj => absurd hj (List.not_mem_nil j), by simpa using hc⟩

theorem multiplex_scan_none_eq (cs : List PooledConnection) (maxTA : Nat) :
    ∀ todo acc acq : List Nat,
    multiplex_scan cs maxTA todo acc = (none, acq) → acq = acc ++ todo := by
  intro todo
  induction todo with
  | nil =>
      intro acc acq h
      unfold multiplex_scan at h
      injection h with h1 h2
      rw [h2]; simp
  | cons i tl ih =>
      intro acc acq h
      unfold multiplex_scan at h
      by_cases hlt : timesOf cs i < (maxTA : Int)
      · rw [if_pos hlt] at h
        injection h with h1
        cases h1
      · rw [if_neg hlt] at h
        rw [ih (acc ++ [i]) acq h]
        simp

theorem multiplex_scan_all_big (cs : List PooledConnection) (maxTA : Nat) :
    ∀ todo acc : List Nat,
    (∀ j ∈ todo, ¬ timesOf cs j < (maxTA : Int)) →
    multiplex_scan cs maxTA todo acc = (none, acc ++ todo) := by
  intro todo
  induction todo with
  | nil => intro acc _; unfold multiplex_scan; simp
  | cons i tl ih =>
      intro acc hbig
      unfold multiplex_scan
      rw [if_neg (hbig i (List.mem_cons_self i tl))]
      rw [ih (acc ++ [i]) (fun j hj => hbig j (List.mem_cons_of_mem i hj))]
      simp

theorem multiplex_scan_found (cs : List PooledConnection) (maxTA : Nat) :
    ∀ l₁ : List Nat, ∀ i : Nat, ∀ l₂ acc : List Nat,
    (∀ j ∈ l₁, ¬ timesOf cs j < (maxTA : Int)) →
    timesOf cs i < (maxTA : Int) →
    multiplex_scan cs maxTA (l₁ ++ i :: l₂) acc = (some i, l₂ ++ (acc ++ l₁) ++ [i]) := by
  intro l₁
  induction l₁ with
  | nil =>
      intro i l₂ acc _ hi
      rw [List.nil_append]
      unfold multiplex_scan
      rw [if_pos hi]
      simp
  | cons k tl ih =>
      intro i l₂ acc hbig hi
      have : (k :: tl) ++ i :: l₂ = k :: (tl ++ i :: l₂) := rfl
      rw [this]
      unfold multiplex_scan
      rw [if_neg (hbig k (List.mem_cons_self k tl))]
      rw [ih i l₂ (acc ++ [k]) (fun j hj => hbig j (List.mem_cons_of_mem k hj)) hi]
      simp

theorem multiplex_scan_sound (cs : List PooledConnection) (maxTA : Nat) :
    ∀ todo acc : List Nat, ∀ o : Option Nat, ∀ acq : List Nat,
    multiplex_scan cs maxTA todo acc = (o, acq) →
    acq.Perm (acc ++ todo) ∧ (∀ i, o = some i → i ∈ todo ∧ timesOf cs i < (maxTA : Int)) := by
  intro todo
  induction todo with
  | nil =>
      intro acc o acq h
      unfold multiplex_scan at h
      injection h with h1 h2
      subst h1; subst h2
      exact ⟨by simp, fun i hi => by cases hi⟩
  | cons k tl ih =>
      intro acc o acq h
      unfold multiplex_scan at h
      by_cases hlt : timesOf cs k < (maxTA : Int)
      · rw [if_pos hlt] at h
        injection h with h1 h2
        subst h1; subst h2
        constructor
        · have p1 : (tl ++ acc ++ [k]).Perm ([k] ++ (tl ++ acc)) :=
            List.perm_append_comm
          have p2 : (acc ++ k :: tl).Perm (k :: (acc ++ tl)) := List.perm_middle
          have p3 : (k :: (tl ++ acc)).Perm (k :: (acc ++ tl)) :=
            List.Perm.cons k List.perm_append_comm
          exact p1.trans (p3.trans p2.symm)
        · intro i hi
          injection hi with hik
          subst hik
          exact ⟨List.mem_cons_self _ _, hlt⟩
      · rw [if_neg hlt] at h
        obtain ⟨hperm, hfound⟩ := ih (acc ++ [k]) o acq h
        constructor
        · refine hperm.trans ?_
          have : acc ++ [k] ++ tl = acc ++ (k :: tl) := by simp
          rw [this]
        · intro i hi
          obtain ⟨hmem, hlt2⟩ := hfound i hi
          exact ⟨List.mem_cons_of_mem k hmem, hlt2⟩

theorem closedOf_modifyConn_close_self {cs : List PooledConnection} {i : Nat}
    (h : i < cs.length) : closedOf (modifyConn cs i close_mark) i = true := by
  obtain ⟨c, hc⟩ := get?_some_of_lt h
  unfold closedOf
  rw [get?_modifyConn, if_pos rfl, hc]
  rfl

theorem closedOf_modifyConn_close_false {cs : List PooledConnection} {i j : Nat}
    (h : closedOf (modifyConn cs i close_mark) j = false) :
    closedOf cs j = false := by
  by_cases hij : i = j
  · subst hij
    unfold closedOf at h ⊢
    rw [get?_modifyConn, if_pos rfl] at h
    cases hg : cs.get? i with
    | none => rfl
    | some c => rw [hg] at h; cases h
  · rw [closedOf_modifyConn_ne cs hij] at h
    exact h

theorem closedOf_modifyConn_close_true {cs : List PooledConnection} {i j : Nat}
    (h : closedOf cs j = true) :
    closedOf (modifyConn cs i close_mark) j = true := by
  by_cases hij : i = j
  · subst hij
    exact closedOf_modifyConn_close_self (lt_length_of_closedOf h)
  · rw [closedOf_modifyConn_ne cs hij]
    exact h

theorem length_close_fold (fails : Nat → Bool) :
    ∀ ids : List Nat, ∀ cs : List PooledConnection,
    (ids.foldl (close_conn fails) cs).length = cs.length := by
  intro ids
  induction ids with
  | nil => intro cs; rfl
  | cons i tl ih =>
      intro cs
      show (tl.foldl (close_conn fails) (close_conn fails cs i)).length = cs.length
      rw [ih]
      unfold close_conn
      by_cases hf : fails i
      · rw [if_pos hf]
      · rw [if_neg hf]; exact length_modifyConn cs i close_mark

theorem timesOf_close_fold (fails : Nat → Bool) :
    ∀ ids : List Nat, ∀ cs : List PooledConnection, ∀ j : Nat,
    timesOf (ids.foldl (close_conn fails) cs) j = timesOf cs j := by
  intro ids
  induction ids with
  | nil => intro cs j; rfl
  | cons i tl ih =>
      intro cs j
      show timesOf (tl.foldl (close_conn fails) (close_conn fails cs i)) j = timesOf cs j
      rw [ih]
      unfold close_conn
      by_cases hf : fails i
      · rw [if_pos hf]
      · rw [if_neg hf]
        exact @timesOf_modifyConn_of close_mark (fun _ => rfl) cs i j

theorem handlesOf_close_fold (fails : Nat → Bool) :
    ∀ ids : List Nat, ∀ cs : List PooledConnection, ∀ j : Nat,
    handlesOf (ids.foldl (close_conn fails) cs) j = handlesOf cs j := by
  intro ids
  induction ids with
  | nil => intro cs j; rfl
  | cons i tl ih =>
      intro cs j
      show handlesOf (tl.foldl (close_conn fails) (close_conn fails cs i)) j = handlesOf cs j
      rw [ih]
      unfold close_conn
      by_cases hf : fails i
      · rw [if_pos hf]
      · rw [if_neg hf]
        exact @handlesOf_modifyConn_of close_mark (fun _ => rfl) cs i j

theorem closedOf_close_fold_false (fails : Nat → Bool) :
    ∀ ids : List Nat, ∀ cs : List PooledConnection, ∀ j : Nat,
    closedOf (ids.foldl (close_conn fails) cs) j = false → closedOf cs j = false := by
  intro ids
  induction ids with
  | nil => intro cs j h; exact h
  | cons i tl ih =>
      intro cs j h
      replace h := ih (close_conn fails cs i) j h
      unfold close_conn at h
      by_cases hf : fails i
      · rw [if_pos hf] at h; exact h
      · rw [if_neg hf] at h
        exact closedOf_modifyConn_close_false h

theorem closedOf_close_fold_true (fails : Nat → Bool) :
    ∀ ids : List Nat, ∀ cs : List PooledConnection, ∀ j : Nat,
    closedOf cs j = true → closedOf (ids.foldl (close_conn fails) cs) j = true := by
  intro ids
  induction ids with
  | nil => intro cs j h; exact h
  | cons i tl ih =>
      intro cs j h
      refine ih (close_conn fails cs i) j ?_
      unfold close_conn
      by_cases hf : fails i
      · rw [if_pos hf]; exact h
      · rw [if_neg hf]
        exact closedOf_modifyConn_close_true h

theorem closedOf_close_fold_mem (fails : Nat → Bool) :
    ∀ ids : List Nat, ∀ cs : List PooledConnection, ∀ j : Nat,
    j ∈ ids → fails j = false → j < cs.length →
    closedOf (ids.foldl (close_conn fails) cs) j = true := by
  intro ids
  induction ids with
  | nil => intro cs j h; cases h
  | cons i tl ih =>
      intro cs j hmem hf hlen
      rcases List.mem_cons.mp hmem with h1 | h1
      · subst h1
        refine closedOf_close_fold_true fails tl (close_conn fails cs j) j ?_
        unfold close_conn
        rw [hf]
        simp only [Bool.false_eq_true, if_false]
        exact closedOf_modifyConn_close_self hlen
      · refine ih (close_conn fails cs i) j h1 hf ?_
        unfold close_conn
        by_cases hfi : fails i
        · rw [if_pos hfi]; exact hlen
        · rw [if_neg hfi]; rw [length_modifyConn]; exact hlen

/-- The pool's structural invariant: entries of `_available` have share
counter zero and entries of `_acquired` have share counter at least
one; the two deques are duplicate-free and disjoint; every tracked
index is a valid store index; every non-closed connection is tracked;
and for non-closed connections the share counter agrees with the ghost
handle count. -/
structure PoolInv (p : ConnectionPool) : Prop where
  avail_zero : ∀ i ∈ p.available, timesOf p.conns i = 0
  acq_pos : ∀ i ∈ p.acquired, 1 ≤ timesOf p.conns i
  avail_nd : p.available.Nodup
  acq_nd : p.acquired.Nodup
  disj : ∀ i, i ∈ p.available → i ∈ p.acquired → False
  avail_lt : ∀ i ∈ p.available, i < p.conns.length
  acq_lt : ∀ i ∈ p.acquired, i < p.conns.length
  live_tracked : ∀ i, i < p.conns.length → closedOf p.conns i = false →
      i ∈ p.available ∨ i ∈ p.acquired
  times_handles : ∀ i, i < p.conns.length → closedOf p.conns i = false →
      timesOf p.conns i = (handlesOf p.conns i : Int)

theorem inv_initial (cfg : PoolConfig) : PoolInv (initialPool cfg) := by
  refine ⟨?_, ?_, List.nodup_nil, List.nodup_nil, ?_, ?_, ?_, ?_, ?_⟩ <;>
    intro i hi <;> cases hi

theorem inv_env_close {p : ConnectionPool} (hp : PoolInv p) (i : Nat) :
    PoolInv (env_close p i) := by
  have hlen : (env_close p i).conns.length = p.conns.length :=
    length_modifyConn p.conns i close_mark
  have htimes : ∀ j, timesOf (env_close p i).conns j = timesOf p.conns j :=
    fun j => @timesOf_modifyConn_of close_mark (fun _ => rfl) p.conns i j
  have hhand : ∀ j, handlesOf (env_close p i).conns j = handlesOf p.conns j :=
    fun j => @handlesOf_modifyConn_of close_mark (fun _ => rfl) p.conns i j
  constructor
  · intro j hj; rw [htimes]; exact hp.avail_zero j hj
  · intro j hj; rw [htimes]; exact hp.acq_pos j hj
  · exact hp.avail_nd
  · exact hp.acq_nd
  · exact hp.disj
  · intro j hj; rw [hlen]; exact hp.avail_lt j hj
  · intro j hj; rw [hlen]; exact hp.acq_lt j hj
  · intro j hjl hjc
    rw [hlen] at hjl
    exact hp.live_tracked j hjl (closedOf_modifyConn_close_false hjc)
  · intro j hjl hjc
    rw [hlen] at hjl
    rw [htimes, hhand]
    exact hp.times_handles j hjl (closedOf_modifyConn_close_false hjc)

theorem inv_add_fresh {p : ConnectionPool} (hp : PoolInv p) : PoolInv p.add_fresh := by
  have hconns : p.add_fresh.conns =
      p.conns ++ [ConnectionPool.get_connection p.default_opts] := rfl
  have havail : p.add_fresh.available = p.available ++ [p.conns.length] := rfl
  have hacq : p.add_fresh.acquired = p.acquired := rfl
  have hlen : p.add_fresh.conns.length = p.conns.length + 1 := by
    rw [hconns]; simp
  constructor
  · intro j hj
    rw [havail] at hj
    rw [hconns]
    rcases List.mem_append.mp hj with h1 | h1
    · rw [timesOf_append_left (hp.avail_lt j h1)]
      exact hp.avail_zero j h1
    · rw [List.mem_singleton.mp h1, timesOf_concat_self]
      rfl
  · intro j hj
    rw [hacq] at hj
    rw [hconns, timesOf_append_left (hp.acq_lt j hj)]
    exact hp.acq_pos j hj
  · rw [havail]
    refine List.Nodup.append hp.avail_nd (List.nodup_singleton _) ?_
    intro x hx hx2
    rw [List.mem_singleton.mp hx2] at hx
    exact absurd (hp.avail_lt _ hx) (lt_irrefl _)
  · rw [hacq]; exact hp.acq_nd
  · intro j hj hj2
    rw [havail] at hj
    rw [hacq] at hj2
    rcases List.mem_append.mp hj with h1 | h1
    · exact hp.disj j h1 hj2
    · rw [List.mem_singleton.mp h1] at hj2
      exact absurd (hp.acq_lt _ hj2) (lt_irrefl _)
  · intro j hj
    rw [havail] at hj
    rw [hlen]
    rcases List.mem_append.mp hj with h1 | h1
    · exact Nat.lt_succ_of_lt (hp.avail_lt j h1)
    · rw [List.mem_singleton.mp h1]
      exact Nat.lt_succ_self _
  · intro j hj
    rw [hacq] at hj
    rw [hlen]
    exact Nat.lt_succ_of_lt (hp.acq_lt j hj)
  · intro j hjl hjc
    rw [hlen] at hjl
    rw [havail, hacq]
    by_cases hje : j = p.conns.length
    · left
      exact List.mem_append_right _ (by rw [hje]; exact List.mem_singleton_self _)
    · have hjlt : j < p.conns.length := by omega
      rw [hconns, closedOf_append_left hjlt] at hjc
      rcases hp.live_tracked j hjlt hjc with h1 | h1
      · exact Or.inl (List.mem_append_left _ h1)
      · exact Or.inr h1
  · intro j hjl hjc
    rw [hlen] at hjl
    rw [hconns]
    by_cases hje : j = p.conns.length
    · subst hje
      rw [timesOf_concat_self, handlesOf_concat_self]
      rfl
    · have hjlt : j < p.conns.length := by omega
      rw [timesOf_append_left hjlt, handlesOf_append_left hjlt]
      rw [hconns, closedOf_append_left hjlt] at hjc
      exact hp.times_handles j hjlt hjc

theorem inv_open_loop : ∀ n : Nat, ∀ p : ConnectionPool, PoolInv p →
    PoolInv (p.open_loop n) := by
  intro n
  induction n with
  | zero => intro p hp; exact hp
  | succ m ih =>
      intro p hp
      exact ih p.add_fresh (inv_add_fresh hp)

theorem inv_init_pool {p : ConnectionPool} (hp : PoolInv p) : PoolInv p.init_pool :=
  inv_open_loop p.min_conns p hp

theorem inv_close {p : ConnectionPool} (hp : PoolInv p) : PoolInv p.close := by
  have hconns : p.close.conns =
      (p.available ++ p.acquired).foldl (close_conn (fun _ => false)) p.conns := rfl
  have havail : p.close.available = [] := rfl
  have hacq : p.close.acquired = [] := rfl
  have hnolive : ∀ j, j < p.close.conns.length → closedOf p.close.conns j = false → False := by
    intro j hjl hjc
    rw [hconns] at hjl hjc
    rw [length_close_fold] at hjl
    have hclosed0 : closedOf p.conns j = false :=
      closedOf_close_fold_false _ _ _ _ hjc
    have hmem : j ∈ p.available ++ p.acquired := by
      rcases hp.live_tracked j hjl hclosed0 with h1 | h1
      · exact List.mem_append_left _ h1
      · exact List.mem_append_right _ h1
    have := closedOf_close_fold_mem (fun _ => false) (p.available ++ p.acquired)
      p.conns j hmem rfl hjl
    rw [hjc] at this
    cases this
  constructor
  · intro j hj; rw [havail] at hj; cases hj
  · intro j hj; rw [hacq] at hj; cases hj
  · rw [havail]; exact List.nodup_nil
  · rw [hacq]; exact List.nodup_nil
  · intro j hj; rw [havail] at hj; cases hj
  · intro j hj; rw [havail] at hj; cases hj
  · intro j hj; rw [hacq] at hj; cases hj
  · intro j hjl hjc
    exact absurd hjc (fun h => hnolive j hjl h)
  · intro j hjl hjc
    exact absurd hjc (fun h => hnolive j hjl h)

theorem acquire_eq_reuse (p : ConnectionPool) (a : AcquireArgs) {i : Nat} {rest : List Nat}
    (hs : scan_available p.conns p.available = some (i, rest)) :
    p.acquire a =
      { pool := { p with
          conns := modifyConn p.conns i acquire_mark
          available := rest
          acquired := p.acquired ++ [i] }
        conn := some i
        branch := some AcqBranch.reuse
        events := [Ev.lockAcq, Ev.lockRel] } := by
  unfold ConnectionPool.acquire
  rw [hs]

theorem acquire_eq_create (p : ConnectionPool) (a : AcquireArgs)
    (hs : scan_available p.conns p.available = none)
    (hlt : p.acquired.length < p.max_conns) :
    p.acquire a =
      { pool := { p with
          conns := p.conns ++ [acquire_mark (ConnectionPool.get_connection (effectiveOpts p a))]
          available := []
          acquired := p.acquired ++ [p.conns.length] }
        conn := some p.conns.length
        branch := some AcqBranch.create
        events := [Ev.lockAcq, Ev.netOpen, Ev.lockRel] } := by
  unfold ConnectionPool.acquire
  rw [hs]
  simp only [if_pos hlt]

theorem acquire_eq_multiplex (p : ConnectionPool) (a : AcquireArgs) {i : Nat} {acq : List Nat}
    (hs : scan_available p.conns p.available = none)
    (hlt : ¬ p.acquired.length < p.max_conns)
    (hm : multiplex_scan p.conns p.max_times_acquired p.acquired [] = (some i, acq)) :
    p.acquire a =
      { pool := { p with
          conns := modifyConn p.conns i acquire_mark
          available := []
          acquired := acq }
        conn := some i
        branch := some AcqBranch.multiplex
        events := [Ev.lockAcq, Ev.lockRel] } := by
  unfold ConnectionPool.acquire
  rw [hs]
  simp only [if_neg hlt]
  rw [hm]

theorem acquire_eq_wait (p : ConnectionPool) (a : AcquireArgs) {acq : List Nat}
    (hs : scan_available p.conns p.available = none)
    (hlt : ¬ p.acquired.length < p.max_conns)
    (hm : multiplex_scan p.conns p.max_times_acquired p.acquired [] = (none, acq)) :
    p.acquire a =
      { pool := { p with available := [], acquired := acq }
        conn := none
        branch := none
        events := [Ev.lockAcq, Ev.lockRel] } := by
  unfold ConnectionPool.acquire
  rw [hs]
  simp only [if_neg hlt]
  rw [hm]

theorem inv_acquire {p : ConnectionPool} (hp : PoolInv p) (a : AcquireArgs) :
    PoolInv (p.acquire a).pool := by
  cases hs : scan_available p.conns p.available with
  | some pr =>
      obtain ⟨i, rest⟩ := pr
      obtain ⟨pre, hl, hpre, hic⟩ := scan_available_some p.conns p.available i rest hs
      rw [acquire_eq_reuse p a hs]
      have hiav : i ∈ p.available := by
        rw [hl]; exact List.mem_append_right _ (List.mem_cons_self _ _)
      have hilt : i < p.conns.length := hp.avail_lt i hiav
      have hit0 : timesOf p.conns i = 0 := hp.avail_zero i hiav
      have hrest_sub : ∀ j ∈ rest, j ∈ p.available := by
        intro j hj; rw [hl]
        exact List.mem_append_right _ (List.mem_cons_of_mem _ hj)
      have hnd : (i :: rest).Nodup := by
        have h2 := hp.avail_nd
        rw [hl] at h2
        exact h2.of_append_right
      have hirest : i ∉ rest := (List.nodup_cons.mp hnd).1
      have hrestnd : rest.Nodup := (List.nodup_cons.mp hnd).2
      have hiacq : i ∉ p.acquired := fun h => hp.disj i hiav h
      constructor
      · intro j hj
        have hji : i ≠ j := fun he => hirest (he ▸ hj)
        rw [timesOf_modifyConn_ne p.conns hji]
        exact hp.avail_zero j (hrest_sub j hj)
      · intro j hj
        rcases List.mem_append.mp hj with h1 | h1
        · by_cases hji : i = j
          · subst hji; exact absurd h1 hiacq
          · rw [timesOf_modifyConn_ne p.conns hji]; exact hp.acq_pos j h1
        · rw [List.mem_singleton.mp h1, timesOf_modifyConn_mark_self hilt, hit0]
          norm_num
      · exact hrestnd
      · refine List.Nodup.append hp.acq_nd (List.nodup_singleton _) ?_
        intro x hx hx2
        rw [List.mem_singleton.mp hx2] at hx
        exact hiacq hx
      · intro j hj hj2
        rcases List.mem_append.mp hj2 with h1 | h1
        · exact hp.disj j (hrest_sub j hj) h1
        · exact hirest (List.mem_singleton.mp h1 ▸ hj)
      · intro j hj
        rw [length_modifyConn]
        exact hp.avail_lt j (hrest_sub j hj)
      · intro j hj
        rw [length_modifyConn]
        rcases List.mem_append.mp hj with h1 | h1
        · exact hp.acq_lt j h1
        · rw [List.mem_singleton.mp h1]; exact hilt
      · intro j hjl hjc
        rw [length_modifyConn] at hjl
        rw [closedOf_modifyConn_mark] at hjc
        rcases hp.live_tracked j hjl hjc with h1 | h1
        · rw [hl] at h1
          rcases List.mem_append.mp h1 with h2 | h2
          · have h3 := hpre j h2
            rw [hjc] at h3
            cases h3
          · rcases List.mem_cons.mp h2 with h3 | h3
            · right
              exact List.mem_append_right _ (by rw [h3]; exact List.mem_singleton_self _)
            · left; exact h3
        · right; exact List.mem_append_left _ h1
      · intro j hjl hjc
        rw [length_modifyConn] at hjl
        rw [closedOf_modifyConn_mark] at hjc
        by_cases hji : i = j
        · subst hji
          rw [timesOf_modifyConn_mark_self hilt, handlesOf_modifyConn_mark_self hilt]
          have h4 := hp.times_handles i hilt hjc
          push_cast
          omega
        · rw [timesOf_modifyConn_ne p.conns hji, handlesOf_modifyConn_ne p.conns hji]
          exact hp.times_handles j hjl hjc
  | none =>
      have hallc : ∀ j ∈ p.available, closedOf p.conns j = true :=
        scan_available_none p.conns p.available hs
      by_cases hlt : p.acquired.length < p.max_conns
      · rw [acquire_eq_create p a hs hlt]
        have hlen1 : (p.conns ++ [acquire_mark (ConnectionPool.get_connection (effectiveOpts p a))]).length
            = p.conns.length + 1 := by simp
        constructor
        · intro j hj; cases hj
        · intro j hj
          rcases List.mem_append.mp hj with h1 | h1
          · rw [timesOf_append_left (hp.acq_lt j h1)]
            exact hp.acq_pos j h1
          · rw [List.mem_singleton.mp h1, timesOf_concat_self]
            norm_num [acquire_mark, ConnectionPool.get_connection]
        · exact List.nodup_nil
        · refine List.Nodup.append hp.acq_nd (List.nodup_singleton _) ?_
          intro x hx hx2
          rw [List.mem_singleton.mp hx2] at hx
          exact absurd (hp.acq_lt _ hx) (lt_irrefl _)
        · intro j hj; cases hj
        · intro j hj; cases hj
        · intro j hj
          rw [hlen1]
          rcases List.mem_append.mp hj with h1 | h1
          · exact Nat.lt_succ_of_lt (hp.acq_lt j h1)
          · rw [List.mem_singleton.mp h1]; exact Nat.lt_succ_self _
        · intro j hjl hjc
          rw [hlen1] at hjl
          by_cases hje : j = p.conns.length
          · right
            exact List.mem_append_right _ (by rw [hje]; exact List.mem_singleton_self _)
          · have hjlt : j < p.conns.length := by omega
            rw [closedOf_append_left hjlt] at hjc
            rcases hp.live_tracked j hjlt hjc with h1 | h1
            · have h3 := hallc j h1
              rw [hjc] at h3
              cases h3
            · right; exact List.mem_append_left _ h1
        · intro j hjl hjc
          rw [hlen1] at hjl
          by_cases hje : j = p.conns.length
          · subst hje
            rw [timesOf_concat_self, handlesOf_concat_self]
            rfl
          · have hjlt : j < p.conns.length := by omega
            rw [timesOf_append_left hjlt, handlesOf_append_left hjlt]
            rw [closedOf_append_left hjlt] at hjc
            exact hp.times_handles j hjlt hjc
      · cases hm : multiplex_scan p.conns p.max_times_acquired p.acquired [] with
        | mk o acq =>
            cases o with
            | some i =>
                obtain ⟨hperm, hfound⟩ :=
                  multiplex_scan_sound p.conns p.max_times_acquired p.acquired [] (some i) acq hm
                obtain ⟨hiacq, hita⟩ := hfound i rfl
                rw [List.nil_append] at hperm
                have hilt : i < p.conns.length := hp.acq_lt i hiacq
                have hmemiff : ∀ j, j ∈ acq ↔ j ∈ p.acquired := fun j => hperm.mem_iff
                rw [acquire_eq_multiplex p a hs hlt hm]
                constructor
                · intro j hj; cases hj
                · intro j hj
                  have hj2 := (hmemiff j).mp hj
                  by_cases hji : i = j
                  · subst hji
                    rw [timesOf_modifyConn_mark_self hilt]
                    have := hp.acq_pos i hiacq
                    omega
                  · rw [timesOf_modifyConn_ne p.conns hji]
                    exact hp.acq_pos j hj2
                · exact List.nodup_nil
                · exact hperm.symm.nodup hp.acq_nd
                · intro j hj; cases hj
                · intro j hj; cases hj
                · intro j hj
                  rw [length_modifyConn]
                  exact hp.acq_lt j ((hmemiff j).mp hj)
                · intro j hjl hjc
                  rw [length_modifyConn] at hjl
                  rw [closedOf_modifyConn_mark] at hjc
                  rcases hp.live_tracked j hjl hjc with h1 | h1
                  · have h3 := hallc j h1
                    rw [hjc] at h3
                    cases h3
                  · right; exact (hmemiff j).mpr h1
                · intro j hjl hjc
                  rw [length_modifyConn] at hjl
                  rw [closedOf_modifyConn_mark] at hjc
                  by_cases hji : i = j
                  · subst hji
                    rw [timesOf_modifyConn_mark_self hilt, handlesOf_modifyConn_mark_self hilt]
                    have h4 := hp.times_handles i hilt hjc
                    push_cast
                    omega
                  · rw [timesOf_modifyConn_ne p.conns hji, handlesOf_modifyConn_ne p.conns hji]
                    exact hp.times_handles j hjl hjc
            | none =>
                have hacq : acq = p.acquired := by
                  have := multiplex_scan_none_eq p.conns p.max_times_acquired p.acquired [] acq hm
                  rw [List.nil_append] at this
                  exact this
                rw [acquire_eq_wait p a hs hlt hm, hacq]
                constructor
                · intro j hj; cases hj
                · exact hp.acq_pos
                · exact List.nodup_nil
                · exact hp.acq_nd
                · intro j hj; cases hj
                · intro j hj; cases hj
                · exact hp.acq_lt
                · intro j hjl hjc
                  rcases hp.live_tracked j hjl hjc with h1 | h1
                  · have h3 := hallc j h1
                    rw [hjc] at h3
                    cases h3
                  · right; exact h1
                · exact hp.times_handles

theorem handlesOf_modifyConn_spend_self {cs : List PooledConnection} {i : Nat}
    (h : i < cs.length) :
    handlesOf (modifyConn cs i spend_handle) i = handlesOf cs i - 1 := by
  obtain ⟨c, hc⟩ := get?_some_of_lt h
  unfold handlesOf
  rw [get?_modifyConn, if_pos rfl, hc]
  rfl

theorem timesOf_modifyConn_dec_self {cs : List PooledConnection} {i : Nat}
    (h : i < cs.length) :
    timesOf (modifyConn cs i dec_times) i = timesOf cs i - 1 := by
  obtain ⟨c, hc⟩ := get?_some_of_lt h
  unfold timesOf
  rw [get?_modifyConn, if_pos rfl, hc]
  rfl

theorem release_eq_closed_mem (p : ConnectionPool) (i : Nat)
    (hc : closedOf (modifyConn p.conns i spend_handle) i = true)
    (hm : i ∈ p.acquired) :
    p.release i =
      { pool := { p with
          conns := modifyConn p.conns i spend_handle
          acquired := p.acquired.erase i
          notifications := p.notifications + 1 }
        error := false } := by
  unfold ConnectionPool.release
  rw [hc]
  simp only [if_true, if_pos hm]

theorem release_eq_closed_err (p : ConnectionPool) (i : Nat)
    (hc : closedOf (modifyConn p.conns i spend_handle) i = true)
    (hm : i ∉ p.acquired) :
    p.release i =
      { pool := { p with conns := modifyConn p.conns i spend_handle }
        error := true } := by
  unfold ConnectionPool.release
  rw [hc]
  simp only [if_true, if_neg hm]

theorem release_eq_zero_mem (p : ConnectionPool) (i : Nat)
    (hc : closedOf (modifyConn p.conns i spend_handle) i = false)
    (h0 : timesOf (modifyConn (modifyConn p.conns i spend_handle) i dec_times) i = 0)
    (hm : i ∈ p.acquired) :
    p.release i =
      { pool := { p with
          conns := modifyConn (modifyConn p.conns i spend_handle) i dec_times
          acquired := p.acquired.erase i
          available := p.available ++ [i]
          notifications := p.notifications + 1 }
        error := false } := by
  unfold ConnectionPool.release
  rw [hc]
  simp only [Bool.false_eq_true, if_false, if_pos h0, if_pos hm]

theorem release_eq_zero_err (p : ConnectionPool) (i : Nat)
    (hc : closedOf (modifyConn p.conns i spend_handle) i = false)
    (h0 : timesOf (modifyConn (modifyConn p.conns i spend_handle) i dec_times) i = 0)
    (hm : i ∉ p.acquired) :
    p.release i =
      { pool := { p with
          conns := modifyConn (modifyConn p.conns i spend_handle) i dec_times }
        error := true } := by
  unfold ConnectionPool.release
  rw [hc]
  simp only [Bool.false_eq_true, if_false, if_pos h0, if_neg hm]

theorem release_eq_pos (p : ConnectionPool) (i : Nat)
    (hc : closedOf (modifyConn p.conns i spend_handle) i = false)
    (h0 : ¬ timesOf (modifyConn (modifyConn p.conns i spend_handle) i dec_times) i = 0) :
    p.release i =
      { pool := { p with
          conns := modifyConn (modifyConn p.conns i spend_handle) i dec_times
          notifications := p.notifications + 1 }
        error := false } := by
  unfold ConnectionPool.release
  rw [hc]
  simp only [Bool.false_eq_true, if_false, if_neg h0]

theorem inv_release {p : ConnectionPool} (hp : PoolInv p) (i : Nat)
    (hh : 1 ≤ handlesOf p.conns i) : PoolInv (p.release i).pool := by
  have hil : i < p.conns.length := lt_length_of_handlesOf hh
  have hcl0 : ∀ j, closedOf (modifyConn p.conns i spend_handle) j = closedOf p.conns j :=
    fun j => @closedOf_modifyConn_of spend_handle (fun _ => rfl) p.conns i j
  have ht0 : ∀ j, timesOf (modifyConn p.conns i spend_handle) j = timesOf p.conns j :=
    fun j => @timesOf_modifyConn_of spend_handle (fun _ => rfl) p.conns i j
  have hlen0 : (modifyConn p.conns i spend_handle).length = p.conns.length :=
    length_modifyConn p.conns i spend_handle
  by_cases hc : closedOf (modifyConn p.conns i spend_handle) i
  · have hcP : closedOf p.conns i = true := by rw [← hcl0 i]; exact hc
    by_cases hm : i ∈ p.acquired
    · rw [release_eq_closed_mem p i hc hm]
      constructor
      · intro j hj; rw [ht0]; exact hp.avail_zero j hj
      · intro j hj
        rw [ht0]
        exact hp.acq_pos j (List.erase_subset _ _ hj)
      · exact hp.avail_nd
      · exact hp.acq_nd.erase i
      · intro j hj hj2
        exact hp.disj j hj (List.erase_subset _ _ hj2)
      · intro j hj; rw [hlen0]; exact hp.avail_lt j hj
      · intro j hj; rw [hlen0]; exact hp.acq_lt j (List.erase_subset _ _ hj)
      · intro j hjl hjc
        rw [hlen0] at hjl
        rw [hcl0] at hjc
        have hji : j ≠ i := by
          intro he; subst he
          rw [hjc] at hcP
          cases hcP
        rcases hp.live_tracked j hjl hjc with h1 | h1
        · left; exact h1
        · right; exact (List.Nodup.mem_erase_iff hp.acq_nd).mpr ⟨hji, h1⟩
      · intro j hjl hjc
        rw [hlen0] at hjl
        rw [hcl0] at hjc
        have hji : i ≠ j := by
          intro he; subst he
          rw [hjc] at hcP
          cases hcP
        rw [ht0, handlesOf_modifyConn_ne p.conns hji]
        exact hp.times_handles j hjl hjc
    · rw [release_eq_closed_err p i hc hm]
      constructor
      · intro j hj; rw [ht0]; exact hp.avail_zero j hj
      · intro j hj; rw [ht0]; exact hp.acq_pos j hj
      · exact hp.avail_nd
      · exact hp.acq_nd
      · exact hp.disj
      · intro j hj; rw [hlen0]; exact hp.avail_lt j hj
      · intro j hj; rw [hlen0]; exact hp.acq_lt j hj
      · intro j hjl hjc
        rw [hlen0] at hjl
        rw [hcl0] at hjc
        exact hp.live_tracked j hjl hjc
      · intro j hjl hjc
        rw [hlen0] at hjl
        rw [hcl0] at hjc
        have hji : i ≠ j := by
          intro he; subst he
          rw [hjc] at hcP
          cases hcP
        rw [ht0, handlesOf_modifyConn_ne p.conns hji]
        exact hp.times_handles j hjl hjc
  · have hcF : closedOf (modifyConn p.conns i spend_handle) i = false := by
      simpa using hc
    have hcP : closedOf p.conns i = false := by rw [← hcl0 i]; exact hcF
    have hth : timesOf p.conns i = (handlesOf p.conns i : Int) :=
      hp.times_handles i hil hcP
    have hge1 : 1 ≤ timesOf p.conns i := by
      rw [hth]; exact_mod_cast hh
    have him : i ∈ p.acquired := by
      rcases hp.live_tracked i hil hcP with h1 | h1
      · have := hp.avail_zero i h1
        omega
      · exact h1
    have hiav : i ∉ p.available := fun h => hp.disj i h him
    have hlen1 :
        (modifyConn (modifyConn p.conns i spend_handle) i dec_times).length
          = p.conns.length := by
      rw [length_modifyConn, hlen0]
    have hcl1 : ∀ j,
        closedOf (modifyConn (modifyConn p.conns i spend_handle) i dec_times) j
          = closedOf p.conns j := by
      intro j
      rw [@closedOf_modifyConn_of dec_times (fun _ => rfl) _ i j, hcl0 j]
    have ht1 : ∀ j, i ≠ j →
        timesOf (modifyConn (modifyConn p.conns i spend_handle) i dec_times) j
          = timesOf p.conns j := by
      intro j hji
      rw [timesOf_modifyConn_ne _ hji, ht0 j]
    have ht1self :
        timesOf (modifyConn (modifyConn p.conns i spend_handle) i dec_times) i
          = timesOf p.conns i - 1 := by
      rw [timesOf_modifyConn_dec_self (by rw [hlen0]; exact hil), ht0 i]
    have hh1 : ∀ j, i ≠ j →
        handlesOf (modifyConn (modifyConn p.conns i spend_handle) i dec_times) j
          = handlesOf p.conns j := by
      intro j hji
      rw [handlesOf_modifyConn_ne _ hji, handlesOf_modifyConn_ne _ hji]
    have hh1self :
        handlesOf (modifyConn (modifyConn p.conns i spend_handle) i dec_times) i
          = handlesOf p.conns i - 1 := by
      rw [@handlesOf_modifyConn_of dec_times (fun _ => rfl) _ i i]
      exact handlesOf_modifyConn_spend_self hil
    by_cases h0 :
        timesOf (modifyConn (modifyConn p.conns i spend_handle) i dec_times) i = 0
    · rw [release_eq_zero_mem p i hcF h0 him]
      constructor
      · intro j hj
        rcases List.mem_append.mp hj with h1 | h1
        · have hji : i ≠ j := fun he => hiav (he ▸ h1)
          rw [ht1 j hji]; exact hp.avail_zero j h1
        · rw [List.mem_singleton.mp h1]; exact h0
      · intro j hj
        have hj2 := List.erase_subset _ _ hj
        have hji : j ≠ i := ((List.Nodup.mem_erase_iff hp.acq_nd).mp hj).1
        rw [ht1 j (fun he => hji he.symm)]
        exact hp.acq_pos j hj2
      · refine List.Nodup.append hp.avail_nd (List.nodup_singleton _) ?_
        intro x hx hx2
        rw [List.mem_singleton.mp hx2] at hx
        exact hiav hx
      · exact hp.acq_nd.erase i
      · intro j hj hj2
        rcases List.mem_append.mp hj with h1 | h1
        · exact hp.disj j h1 (List.erase_subset _ _ hj2)
        · have hje : j = i := List.mem_singleton.mp h1
          subst hje
          exact ((List.Nodup.mem_erase_iff hp.acq_nd).mp hj2).1 rfl
      · intro j hj
        rw [hlen1]
        rcases List.mem_append.mp hj with h1 | h1
        · exact hp.avail_lt j h1
        · rw [List.mem_singleton.mp h1]; exact hil
      · intro j hj
        rw [hlen1]
        exact hp.acq_lt j (List.erase_subset _ _ hj)
      · intro j hjl hjc
        rw [hlen1] at hjl
        rw [hcl1] at hjc
        by_cases hji : j = i
        · subst hji
          left
          exact List.mem_append_right _ (List.mem_singleton_self _)
        · rcases hp.live_tracked j hjl hjc with h1 | h1
          · left; exact List.mem_append_left _ h1
          · right; exact (List.Nodup.mem_erase_iff hp.acq_nd).mpr ⟨hji, h1⟩
      · intro j hjl hjc
        rw [hlen1] at hjl
        rw [hcl1] at hjc
        by_cases hji : i = j
        · subst hji
          rw [ht1self, hh1self, hth, Nat.cast_sub hh]
          norm_num
        · rw [ht1 j hji, hh1 j hji]
          exact hp.times_handles j hjl hjc
    · rw [release_eq_pos p i hcF h0]
      constructor
      · intro j hj
        have hji : i ≠ j := fun he => hiav (he ▸ hj)
        rw [ht1 j hji]
        exact hp.avail_zero j hj
      · intro j hj
        by_cases hji : i = j
        · subst hji
          rw [ht1self]
          rw [ht1self] at h0
          omega
        · rw [ht1 j hji]
          exact hp.acq_pos j hj
      · exact hp.avail_nd
      · exact hp.acq_nd
      · exact hp.disj
      · intro j hj; rw [hlen1]; exact hp.avail_lt j hj
      · intro j hj; rw [hlen1]; exact hp.acq_lt j hj
      · intro j hjl hjc
        rw [hlen1] at hjl
        rw [hcl1] at hjc
        exact hp.live_tracked j hjl hjc
      · intro j hjl hjc
        rw [hlen1] at hjl
        rw [hcl1] at hjc
        by_cases hji : i = j
        · subst hji
          rw [ht1self, hh1self, hth, Nat.cast_sub hh]
          norm_num
        · rw [ht1 j hji, hh1 j hji]
          exact hp.times_handles j hjl hjc

theorem inv_pool_step {p q : ConnectionPool} (hp : PoolInv p) (hs : PoolStep p q) :
    PoolInv q := by
  cases hs with
  | init_pool => exact inv_init_pool hp
  | acquire a => exact inv_acquire hp a
  | release i h => exact inv_release hp i h
  | close => exact inv_close hp
  | env_close i => exact inv_env_close hp i

theorem inv_steps {p q : ConnectionPool} (hp : PoolInv p) (h : Steps p q) : PoolInv q := by
  induction h with
  | refl => exact hp
  | tail h1 h2 ih => exact inv_pool_step ih h2

theorem inv_reachable {cfg : PoolConfig} {p : ConnectionPool}
    (h : Reachable cfg p) : PoolInv p :=
  inv_steps (inv_initial cfg) h

theorem closed_mono_step {p q : ConnectionPool} {i : Nat} (hs : PoolStep p q)
    (hc : closedOf p.conns i = true) : closedOf q.conns i = true := by
  have hil : i < p.conns.length := lt_length_of_closedOf hc
  cases hs with
  | init_pool =>
      have hgen : ∀ n : Nat, ∀ r : ConnectionPool, closedOf r.conns i = true →
          closedOf (r.open_loop n).conns i = true := by
        intro n
        induction n with
        | zero => intro r h; exact h
        | succ m ih =>
            intro r h
            refine ih r.add_fresh ?_
            have : r.add_fresh.conns = r.conns ++ [ConnectionPool.get_connection r.default_opts] := rfl
            rw [this, closedOf_append_left (lt_length_of_closedOf h)]
            exact h
      exact hgen p.min_conns p hc
  | acquire a =>
      cases hs2 : scan_available p.conns p.available with
      | some pr =>
          obtain ⟨j, rest⟩ := pr
          rw [acquire_eq_reuse p a hs2]
          rw [show ({ p with
              conns := modifyConn p.conns j acquire_mark
              available := rest
              acquired := p.acquired ++ [j] } : ConnectionPool).conns
            = modifyConn p.conns j acquire_mark from rfl]
          rw [closedOf_modifyConn_mark]
          exact hc
      | none =>
          by_cases hlt : p.acquired.length < p.max_conns
          · rw [acquire_eq_create p a hs2 hlt]
            rw [show ({ p with
                conns := p.conns ++ [acquire_mark (ConnectionPool.get_connection (effectiveOpts p a))]
                available := []
                acquired := p.acquired ++ [p.conns.length] } : ConnectionPool).conns
              = p.conns ++ [acquire_mark (ConnectionPool.get_connection (effectiveOpts p a))] from rfl]
            rw [closedOf_append_left hil]
            exact hc
          · cases hm : multiplex_scan p.conns p.max_times_acquired p.acquired [] with
            | mk o acq =>
                cases o with
                | some j =>
                    rw [acquire_eq_multiplex p a hs2 hlt hm]
                    rw [show ({ p with
                        conns := modifyConn p.conns j acquire_mark
                        available := []
                        acquired := acq } : ConnectionPool).conns
                      = modifyConn p.conns j acquire_mark from rfl]
                    rw [closedOf_modifyConn_mark]
                    exact hc
                | none =>
                    rw [acquire_eq_wait p a hs2 hlt hm]
                    exact hc
  | release j h =>
      have hcl0 : ∀ k, closedOf (modifyConn p.conns j spend_handle) k = closedOf p.conns k :=
        fun k => @closedOf_modifyConn_of spend_handle (fun _ => rfl) p.conns j k
      have hcl1 : ∀ k,
          closedOf (modifyConn (modifyConn p.conns j spend_handle) j dec_times) k
            = closedOf p.conns k := by
        intro k
        rw [@closedOf_modifyConn_of dec_times (fun _ => rfl) _ j k, hcl0 k]
      by_cases hcb : closedOf (modifyConn p.conns j spend_handle) j
      · by_cases hmb : j ∈ p.acquired
        · rw [release_eq_closed_mem p j hcb hmb]
          rw [show ({ p with
              conns := modifyConn p.conns j spend_handle
              acquired := p.acquired.erase j
              notifications := p.notifications + 1 } : ConnectionPool).conns
            = modifyConn p.conns j spend_handle from rfl, hcl0]
          exact hc
        · rw [release_eq_closed_err p j hcb hmb]
          rw [show ({ p with conns := modifyConn p.conns j spend_handle } : ConnectionPool).conns
            = modifyConn p.conns j spend_handle from rfl, hcl0]
          exact hc
      · have hcF : closedOf (modifyConn p.conns j spend_handle) j = false := by simpa using hcb
        by_cases h0 :
            timesOf (modifyConn (modifyConn p.conns j spend_handle) j dec_times) j = 0
        · by_cases hmb : j ∈ p.acquired
          · rw [release_eq_zero_mem p j hcF h0 hmb]
            rw [show ({ p with
                conns := modifyConn (modifyConn p.conns j spend_handle) j dec_times
                acquired := p.acquired.erase j
                available := p.available ++ [j]
                notifications := p.notifications + 1 } : ConnectionPool).conns
              = modifyConn (modifyConn p.conns j spend_handle) j dec_times from rfl, hcl1]
            exact hc
          · rw [release_eq_zero_err p j hcF h0 hmb]
            rw [show ({ p with
                conns := modifyConn (modifyConn p.conns j spend_handle) j dec_times } : ConnectionPool).conns
              = modifyConn (modifyConn p.conns j spend_handle) j dec_times from rfl, hcl1]
            exact hc
        · rw [release_eq_pos p j hcF h0]
          rw [show ({ p with
              conns := modifyConn (modifyConn p.conns j spend_handle) j dec_times
              notifications := p.notifications + 1 } : ConnectionPool).conns
            = modifyConn (modifyConn p.conns j spend_handle) j dec_times from rfl, hcl1]
          exact hc
  | close =>
      exact closedOf_close_fold_true _ _ _ _ hc
  | env_close j =>
      exact closedOf_modifyConn_close_true hc

theorem open_loop_acquired : ∀ n : Nat, ∀ r : ConnectionPool,
    (r.open_loop n).acquired = r.acquired := by
  intro n
  induction n with
  | zero => intro r; rfl
  | succ m ih => intro r; exact ih r.add_fresh

theorem open_loop_avail_len : ∀ n : Nat, ∀ r : ConnectionPool,
    (r.open_loop n).available.length = r.available.length + n := by
  intro n
  induction n with
  | zero => intro r; rfl
  | succ m ih =>
      intro r
      rw [show r.open_loop (m + 1) = r.add_fresh.open_loop m from rfl, ih]
      have : r.add_fresh.available.length = r.available.length + 1 := by
        rw [show r.add_fresh.available = r.available ++ [r.conns.length] from rfl]
        simp
      omega

theorem open_loop_max_conns : ∀ n : Nat, ∀ r : ConnectionPool,
    (r.open_loop n).max_conns = r.max_conns := by
  intro n
  induction n with
  | zero => intro r; rfl
  | succ m ih => intro r; exact ih r.add_fresh

theorem open_loop_min_conns : ∀ n : Nat, ∀ r : ConnectionPool,
    (r.open_loop n).min_conns = r.min_conns := by
  intro n
  induction n with
  | zero => intro r; rfl
  | succ m ih => intro r; exact ih r.add_fresh

theorem open_loop_avail_mem : ∀ n : Nat, ∀ r : ConnectionPool, ∀ j : Nat,
    j ∈ (r.open_loop n).available → j ∈ r.available ∨ r.conns.length ≤ j := by
  intro n
  induction n with
  | zero => intro r j hj; exact Or.inl hj
  | succ m ih =>
      intro r j hj
      rcases ih r.add_fresh j hj with h1 | h1
      · rw [show r.add_fresh.available = r.available ++ [r.conns.length] from rfl] at h1
        rcases List.mem_append.mp h1 with h2 | h2
        · exact Or.inl h2
        · exact Or.inr (le_of_eq (List.mem_singleton.mp h2).symm)
      · rw [show r.add_fresh.conns.length = r.conns.length + 1 from by
          rw [show r.add_fresh.conns = r.conns ++ [ConnectionPool.get_connection r.default_opts] from rfl]; simp] at h1
        exact Or.inr (by omega)

theorem closed_not_avail_step {p q : ConnectionPool} {i : Nat} (hs : PoolStep p q)
    (hc : closedOf p.conns i = true) (hna : i ∉ p.available) : i ∉ q.available := by
  have hil : i < p.conns.length := lt_length_of_closedOf hc
  cases hs with
  | init_pool =>
      intro hmem
      rcases open_loop_avail_mem p.min_conns p i hmem with h1 | h1
      · exact hna h1
      · omega
  | acquire a =>
      cases hs2 : scan_available p.conns p.available with
      | some pr =>
          obtain ⟨j, rest⟩ := pr
          rw [acquire_eq_reuse p a hs2]
          intro hmem
          obtain ⟨pre, hl, hpre, hjc⟩ := scan_available_some p.conns p.available j rest hs2
          refine hna ?_
          rw [hl]
          exact List.mem_append_right _ (List.mem_cons_of_mem _ hmem)
      | none =>
          by_cases hlt : p.acquired.length < p.max_conns
          · rw [acquire_eq_create p a hs2 hlt]
            intro hmem
            cases hmem
          · cases hm : multiplex_scan p.conns p.max_times_acquired p.acquired [] with
            | mk o acq =>
                cases o with
                | some j =>
                    rw [acquire_eq_multiplex p a hs2 hlt hm]
                    intro hmem
                    cases hmem
                | none =>
                    rw [acquire_eq_wait p a hs2 hlt hm]
                    intro hmem
                    cases hmem
  | release j h =>
      by_cases hcb : closedOf (modifyConn p.conns j spend_handle) j
      · by_cases hmb : j ∈ p.acquired
        · rw [release_eq_closed_mem p j hcb hmb]; exact hna
        · rw [release_eq_closed_err p j hcb hmb]; exact hna
      · have hcF : closedOf (modifyConn p.conns j spend_handle) j = false := by simpa using hcb
        have hcPj : closedOf p.conns j = false := by
          rw [← @closedOf_modifyConn_of spend_handle (fun _ => rfl) p.conns j j]
          exact hcF
        have hij : i ≠ j := by
          intro he
          rw [he, hcPj] at hc
          cases hc
        by_cases h0 :
            timesOf (modifyConn (modifyConn p.conns j spend_handle) j dec_times) j = 0
        · by_cases hmb : j ∈ p.acquired
          · rw [release_eq_zero_mem p j hcF h0 hmb]
            intro hmem
            rcases List.mem_append.mp hmem with h1 | h1
            · exact hna h1
            · exact hij (List.mem_singleton.mp h1)
          · rw [release_eq_zero_err p j hcF h0 hmb]; exact hna
        · rw [release_eq_pos p j hcF h0]; exact hna
  | close =>
      intro hmem
      cases hmem
  | env_close j =>
      exact hna

theorem closed_not_avail_steps {p q : ConnectionPool} {i : Nat} (h : Steps p q)
    (hc : closedOf p.conns i = true) (hna : i ∉ p.available) :
    closedOf q.conns i = true ∧ i ∉ q.available := by
  induction h with
  | refl => exact ⟨hc, hna⟩
  | tail h1 h2 ih =>
      exact ⟨closed_mono_step h2 ih.1, closed_not_avail_step h2 ih.1 ih.2⟩

theorem bound_stepI {p q : ConnectionPool} (hs : PoolStepI p q)
    (hm : p.min_conns ≤ p.max_conns)
    (hb : p.available.length + p.acquired.length ≤ p.max_conns) :
    q.min_conns ≤ q.max_conns ∧
      q.available.length + q.acquired.length ≤ q.max_conns := by
  cases hs with
  | init_pool h1 h2 =>
      rw [show p.init_pool = p.open_loop p.min_conns from rfl]
      rw [open_loop_min_conns, open_loop_max_conns, open_loop_avail_len,
        open_loop_acquired, h1, h2]
      simp only [List.length_nil, Nat.zero_add]
      exact ⟨hm, by omega⟩
  | acquire a =>
      cases hs2 : scan_available p.conns p.available with
      | some pr =>
          obtain ⟨i, rest⟩ := pr
          obtain ⟨pre, hl, hpre, hic⟩ := scan_available_some p.conns p.available i rest hs2
          have hlf : p.available.length = pre.length + (rest.length + 1) := by
            rw [hl]; simp
          rw [acquire_eq_reuse p a hs2]
          refine ⟨hm, ?_⟩
          simp only [List.length_append, List.length_singleton]
          omega
      | none =>
          by_cases hlt : p.acquired.length < p.max_conns
          · rw [acquire_eq_create p a hs2 hlt]
            refine ⟨hm, ?_⟩
            simp only [List.length_append, List.length_singleton, List.length_nil]
            omega
          · cases hmx : multiplex_scan p.conns p.max_times_acquired p.acquired [] with
            | mk o acq =>
                cases o with
                | some i =>
                    obtain ⟨hperm, _⟩ := multiplex_scan_sound p.conns
                      p.max_times_acquired p.acquired [] (some i) acq hmx
                    have hlq : acq.length = p.acquired.length := by
                      rw [hperm.length_eq]; simp
                    rw [acquire_eq_multiplex p a hs2 hlt hmx]
                    refine ⟨hm, ?_⟩
                    simp only [List.length_nil, Nat.zero_add, hlq]
                    omega
                | none =>
                    have hq : acq = p.acquired := by
                      have h3 := multiplex_scan_none_eq p.conns
                        p.max_times_acquired p.acquired [] acq hmx
                      rw [List.nil_append] at h3
                      exact h3
                    rw [acquire_eq_wait p a hs2 hlt hmx, hq]
                    refine ⟨hm, ?_⟩
                    simp only [List.length_nil, Nat.zero_add]
                    omega
  | release i h =>
      by_cases hcb : closedOf (modifyConn p.conns i spend_handle) i
      · by_cases hmb : i ∈ p.acquired
        · rw [release_eq_closed_mem p i hcb hmb]
          refine ⟨hm, ?_⟩
          have := List.length_erase_of_mem hmb
          simp only [this]
          omega
        · rw [release_eq_closed_err p i hcb hmb]
          exact ⟨hm, hb⟩
      · have hcF : closedOf (modifyConn p.conns i spend_handle) i = false := by
          simpa using hcb
        by_cases h0 :
            timesOf (modifyConn (modifyConn p.conns i spend_handle) i dec_times) i = 0
        · by_cases hmb : i ∈ p.acquired
          · rw [release_eq_zero_mem p i hcF h0 hmb]
            refine ⟨hm, ?_⟩
            have h4 := List.length_erase_of_mem hmb
            have h5 : 0 < p.acquired.length := List.length_pos_of_mem hmb
            simp only [h4, List.length_append, List.length_singleton]
            omega
          · rw [release_eq_zero_err p i hcF h0 hmb]
            exact ⟨hm, hb⟩
        · rw [release_eq_pos p i hcF h0]
          exact ⟨hm, hb⟩
  | close =>
      exact ⟨hm, Nat.zero_le _⟩
  | env_close i =>
      exact ⟨hm, hb⟩

theorem bound_reachableI {cfg : PoolConfig} {p : ConnectionPool}
    (hcfg : cfg.min_conns ≤ cfg.max_conns) (h : ReachableI cfg p) :
    p.min_conns ≤ p.max_conns ∧
      p.available.length + p.acquired.length ≤ p.max_conns := by
  induction h with
  | refl => exact ⟨hcfg, by simp [initialPool]⟩
  | tail h1 h2 ih => exact bound_stepI h2 ih.1 ih.2

/-- C3: in every reachable pool state, every entry of `_available` has
`times_acquired == 0`, every entry of `_acquired` has
`times_acquired >= 1`, no connection is tracked in both collections
(each deque is also duplicate-free), and every live (non-closed)
connection is tracked in one of the two collections — so each live
connection is in exactly one of them. -/
theorem tracking_invariant_of_reachable (cfg : PoolConfig) (p : ConnectionPool)
    (h : Reachable cfg p) :
    (∀ i ∈ p.available, timesOf p.conns i = 0) ∧
    (∀ i ∈ p.acquired, 1 ≤ timesOf p.conns i) ∧
    (∀ i, ¬ (i ∈ p.available ∧ i ∈ p.acquired)) ∧
    p.available.Nodup ∧ p.acquired.Nodup ∧
    (∀ i, i < p.conns.length → closedOf p.conns i = false →
      (i ∈ p.available ∨ i ∈ p.acquired)) := by
  have hp := inv_reachable h
  exact ⟨hp.avail_zero, hp.acq_pos, fun i hi => hp.disj i hi.1 hi.2,
    hp.avail_nd, hp.acq_nd, hp.live_tracked⟩

/-- Witness for C3 at a concrete reachable state: the pool obtained
from a fresh 4-connection-capacity pool by one acquire call. -/
theorem tracking_invariant_wit :
    (∀ i ∈ ((initialPool ⟨"u", "pw", "gremlin-groovy", none, none, 4, 1, 16, 64⟩).acquire
        AcquireArgs.defaults).pool.available,
      timesOf ((initialPool ⟨"u", "pw", "gremlin-groovy", none, none, 4, 1, 16, 64⟩).acquire
        AcquireArgs.defaults).pool.conns i = 0) ∧
    (∀ i ∈ ((initialPool ⟨"u", "pw", "gremlin-groovy", none, none, 4, 1, 16, 64⟩).acquire
        AcquireArgs.defaults).pool.acquired,
      1 ≤ timesOf ((initialPool ⟨"u", "pw", "gremlin-groovy", none, none, 4, 1, 16, 64⟩).acquire
        AcquireArgs.defaults).pool.conns i) ∧
    (∀ i, ¬ (i ∈ ((initialPool ⟨"u", "pw", "gremlin-groovy", none, none, 4, 1, 16, 64⟩).acquire
        AcquireArgs.defaults).pool.available ∧
      i ∈ ((initialPool ⟨"u", "pw", "gremlin-groovy", none, none, 4, 1, 16, 64⟩).acquire
        AcquireArgs.defaults).pool.acquired)) ∧
    ((initialPool ⟨"u", "pw", "gremlin-groovy", none, none, 4, 1, 16, 64⟩).acquire
        AcquireArgs.defaults).pool.available.Nodup ∧
    ((initialPool ⟨"u", "pw", "gremlin-groovy", none, none, 4, 1, 16, 64⟩).acquire
        AcquireArgs.defaults).pool.acquired.Nodup ∧
    (∀ i, i < ((initialPool ⟨"u", "pw", "gremlin-groovy", none, none, 4, 1, 16, 64⟩).acquire
        AcquireArgs.defaults).pool.conns.length →
      closedOf ((initialPool ⟨"u", "pw", "gremlin-groovy", none, none, 4, 1, 16, 64⟩).acquire
        AcquireArgs.defaults).pool.conns i = false →
      (i ∈ ((initialPool ⟨"u", "pw", "gremlin-groovy", none, none, 4, 1, 16, 64⟩).acquire
        AcquireArgs.defaults).pool.available ∨
       i ∈ ((initialPool ⟨"u", "pw", "gremlin-groovy", none, none, 4, 1, 16, 64⟩).acquire
        AcquireArgs.defaults).pool.acquired)) :=
  tracking_invariant_of_reachable _ _
    (Relation.ReflTransGen.tail Relation.ReflTransGen.refl
      (PoolStep.acquire AcquireArgs.defaults))

/-- C8: `init_pool` on a freshly constructed pool with
`min_conns = N` leaves exactly N connections in `_available`, each with
share counter 0, and `_acquired` empty. -/
theorem init_pool_fills_available (cfg : PoolConfig) :
    ((initialPool cfg).init_pool).available.length = cfg.min_conns ∧
    ((initialPool cfg).init_pool).acquired = [] ∧
    (∀ i ∈ ((initialPool cfg).init_pool).available,
      timesOf ((initialPool cfg).init_pool).conns i = 0) := by
  refine ⟨?_, ?_, ?_⟩
  · rw [show (initialPool cfg).init_pool
        = (initialPool cfg).open_loop (initialPool cfg).min_conns from rfl,
      open_loop_avail_len]
    show 0 + cfg.min_conns = cfg.min_conns
    omega
  · rw [show (initialPool cfg).init_pool
        = (initialPool cfg).open_loop (initialPool cfg).min_conns from rfl,
      open_loop_acquired]
    rfl
  · exact (inv_init_pool (inv_initial cfg)).avail_zero

/-- C2 (amended): when `init_pool` is only invoked on a pool that is
tracking no connection (its intended one-time initialization role) and
`min_conns <= max_conns`, every reachable state satisfies the capacity
bound `len(available) + len(acquired) <= max_conns`. -/
theorem reachable_size_bound (cfg : PoolConfig) (p : ConnectionPool)
    (hcfg : cfg.min_conns ≤ cfg.max_conns) (h : ReachableI cfg p) :
    p.available.length + p.acquired.length ≤ p.max_conns :=
  (bound_reachableI hcfg h).2

/-- Witness for C2 at a concrete reachable state: a fresh
`max_conns = 2`, `min_conns = 1` pool after its initialization. -/
theorem reachable_size_bound_wit :
    ((initialPool ⟨"u", "pw", "gremlin-groovy", none, none, 2, 1, 16, 64⟩).init_pool).available.length
      + ((initialPool ⟨"u", "pw", "gremlin-groovy", none, none, 2, 1, 16, 64⟩).init_pool).acquired.length
      ≤ ((initialPool ⟨"u", "pw", "gremlin-groovy", none, none, 2, 1, 16, 64⟩).init_pool).max_conns :=
  reachable_size_bound _ _ (by decide)
    (Relation.ReflTransGen.tail Relation.ReflTransGen.refl
      (PoolStepI.init_pool rfl rfl))

/-- Counterexample to C2 as stated: `init_pool` carries no guard, so a
sequence of two `init_pool` calls on a `max_conns = min_conns = 1` pool
(a sequence of pool operations, with `min_conns <= max_conns`) reaches
a state tracking 2 connections, violating the claimed bound. -/
theorem repeated_init_pool_exceeds_bound_cx :
    Reachable ⟨"u", "pw", "gremlin-groovy", none, none, 1, 1, 16, 64⟩
      ((initialPool ⟨"u", "pw", "gremlin-groovy", none, none, 1, 1, 16, 64⟩).init_pool.init_pool) ∧
    ((initialPool ⟨"u", "pw", "gremlin-groovy", none, none, 1, 1, 16, 64⟩).init_pool.init_pool).max_conns
      < ((initialPool ⟨"u", "pw", "gremlin-groovy", none, none, 1, 1, 16, 64⟩).init_pool.init_pool).available.length
        + ((initialPool ⟨"u", "pw", "gremlin-groovy", none, none, 1, 1, 16, 64⟩).init_pool.init_pool).acquired.length := by
  constructor
  · exact Relation.ReflTransGen.tail
      (Relation.ReflTransGen.tail Relation.ReflTransGen.refl PoolStep.init_pool)
      PoolStep.init_pool
  · decide

/-- C1 (amended): a connection returned by the reuse branch (the
available scan skips closed entries) or by the create branch (the
factory yields an open connection) is never closed; the claim's
extension to the multiplex branch fails, because that branch checks
only `times_acquired`, never `closed`. -/
theorem acquire_no_closed_reuse_create (p : ConnectionPool) (a : AcquireArgs) (i : Nat)
    (hi : (p.acquire a).conn = some i)
    (hb : (p.acquire a).branch ≠ some AcqBranch.multiplex) :
    closedOf (p.acquire a).pool.conns i = false := by
  cases hs : scan_available p.conns p.available with
  | some pr =>
      obtain ⟨j, rest⟩ := pr
      obtain ⟨pre, hl, hpre, hjc⟩ := scan_available_some p.conns p.available j rest hs
      rw [acquire_eq_reuse p a hs] at hi ⊢
      have hij : j = i := by injection hi
      subst hij
      show closedOf (modifyConn p.conns j acquire_mark) j = false
      rw [closedOf_modifyConn_mark]
      exact hjc
  | none =>
      by_cases hlt : p.acquired.length < p.max_conns
      · rw [acquire_eq_create p a hs hlt] at hi ⊢
        have hij : p.conns.length = i := by injection hi
        subst hij
        show closedOf
          (p.conns ++ [acquire_mark (ConnectionPool.get_connection (effectiveOpts p a))])
          p.conns.length = false
        rw [closedOf_concat_self]
        rfl
      · cases hm : multiplex_scan p.conns p.max_times_acquired p.acquired [] with
        | mk o acq =>
            cases o with
            | some j =>
                rw [acquire_eq_multiplex p a hs hlt hm] at hb
                exact absurd rfl hb
            | none =>
                rw [acquire_eq_wait p a hs hlt hm] at hi
                cases hi

/-- Witness for C1 at a concrete input: the create branch of a fresh
pool returns connection 0, which reports not closed. -/
theorem acquire_no_closed_reuse_create_wit :
    closedOf ((initialPool ⟨"u", "pw", "gremlin-groovy", none, none, 4, 1, 16, 64⟩).acquire
      AcquireArgs.defaults).pool.conns 0 = false :=
  acquire_no_closed_reuse_create _ AcquireArgs.defaults 0 (by decide) (by decide)

/-- Counterexample to C1 as stated: on a `max_conns = 1` pool, acquire
a connection (create branch), let its transport close under it, and
acquire again; the multiplex branch returns connection 0 even though it
reports closed. -/
theorem acquire_multiplex_returns_closed_cx :
    Reachable ⟨"u", "pw", "gremlin-groovy", none, none, 1, 1, 16, 64⟩
      (env_close ((initialPool ⟨"u", "pw", "gremlin-groovy", none, none, 1, 1, 16, 64⟩).acquire
        AcquireArgs.defaults).pool 0) ∧
    ((env_close ((initialPool ⟨"u", "pw", "gremlin-groovy", none, none, 1, 1, 16, 64⟩).acquire
        AcquireArgs.defaults).pool 0).acquire AcquireArgs.defaults).conn = some 0 ∧
    ((env_close ((initialPool ⟨"u", "pw", "gremlin-groovy", none, none, 1, 1, 16, 64⟩).acquire
        AcquireArgs.defaults).pool 0).acquire AcquireArgs.defaults).branch
      = some AcqBranch.multiplex ∧
    closedOf ((env_close ((initialPool ⟨"u", "pw", "gremlin-groovy", none, none, 1, 1, 16, 64⟩).acquire
        AcquireArgs.defaults).pool 0).acquire AcquireArgs.defaults).pool.conns 0 = true := by
  refine ⟨?_, by decide, by decide, by decide⟩
  exact Relation.ReflTransGen.tail
    (Relation.ReflTransGen.tail Relation.ReflTransGen.refl
      (PoolStep.acquire AcquireArgs.defaults))
    (PoolStep.env_close 0)

/-- C6: releasing a non-closed acquired connection never raises,
decrements its share counter by one, moves it (exactly once, with no
duplicate entry) from `_acquired` to the back of `_available` precisely
when the counter reaches zero, leaves both collections untouched
otherwise, and in either case schedules exactly one `_notify` task. -/
theorem release_open_decrement_notify (cfg : PoolConfig) (p : ConnectionPool) (i : Nat)
    (h : Reachable cfg p) (hm : i ∈ p.acquired) (hc : closedOf p.conns i = false) :
    (p.release i).error = false ∧
    timesOf (p.release i).pool.conns i = timesOf p.conns i - 1 ∧
    (p.release i).pool.notifications = p.notifications + 1 ∧
    (timesOf p.conns i = 1 →
      (p.release i).pool.available = p.available ++ [i] ∧
      (p.release i).pool.available.count i = 1 ∧
      i ∉ (p.release i).pool.acquired) ∧
    (2 ≤ timesOf p.conns i →
      (p.release i).pool.available = p.available ∧
      (p.release i).pool.acquired = p.acquired) := by
  have hp := inv_reachable h
  have hil : i < p.conns.length := hp.acq_lt i hm
  have hge1 : 1 ≤ timesOf p.conns i := hp.acq_pos i hm
  have hiav : i ∉ p.available := fun hav => hp.disj i hav hm
  have hcs0F : closedOf (modifyConn p.conns i spend_handle) i = false := by
    rw [@closedOf_modifyConn_of spend_handle (fun _ => rfl) p.conns i i]
    exact hc
  have ht1self :
      timesOf (modifyConn (modifyConn p.conns i spend_handle) i dec_times) i
        = timesOf p.conns i - 1 := by
    rw [timesOf_modifyConn_dec_self (by rw [length_modifyConn]; exact hil)]
    rw [@timesOf_modifyConn_of spend_handle (fun _ => rfl) p.conns i i]
  by_cases h1 : timesOf p.conns i = 1
  · have h0 : timesOf (modifyConn (modifyConn p.conns i spend_handle) i dec_times) i = 0 := by
      rw [ht1self, h1]
      norm_num
    rw [release_eq_zero_mem p i hcs0F h0 hm]
    refine ⟨rfl, ?_, rfl, ?_, ?_⟩
    · exact ht1self
    · intro _
      refine ⟨rfl, ?_, ?_⟩
      · show (p.available ++ [i]).count i = 1
        rw [List.count_append, List.count_eq_zero.mpr hiav]
        simp
      · intro h2
        exact ((List.Nodup.mem_erase_iff hp.acq_nd).mp h2).1 rfl
    · intro h2
      exact absurd h1 (by omega)
  · have h2 : 2 ≤ timesOf p.conns i := by omega
    have h0ne :
        ¬ timesOf (modifyConn (modifyConn p.conns i spend_handle) i dec_times) i = 0 := by
      rw [ht1self]
      omega
    rw [release_eq_pos p i hcs0F h0ne]
    refine ⟨rfl, ht1self, rfl, ?_, fun _ => ⟨rfl, rfl⟩⟩
    intro hx
    exact absurd hx (by omega)

/-- Witness for C6 at a concrete input: releasing the connection a
fresh pool's first acquire returned (counter 1, so it moves back to
`_available`). -/
theorem release_open_decrement_notify_wit :
    ((((initialPool ⟨"u", "pw", "gremlin-groovy", none, none, 4, 1, 16, 64⟩).acquire
        AcquireArgs.defaults).pool).release 0).error = false ∧
    timesOf ((((initialPool ⟨"u", "pw", "gremlin-groovy", none, none, 4, 1, 16, 64⟩).acquire
        AcquireArgs.defaults).pool).release 0).pool.conns 0
      = timesOf (((initialPool ⟨"u", "pw", "gremlin-groovy", none, none, 4, 1, 16, 64⟩).acquire
        AcquireArgs.defaults).pool).conns 0 - 1 ∧
    ((((initialPool ⟨"u", "pw", "gremlin-groovy", none, none, 4, 1, 16, 64⟩).acquire
        AcquireArgs.defaults).pool).release 0).pool.notifications
      = (((initialPool ⟨"u", "pw", "gremlin-groovy", none, none, 4, 1, 16, 64⟩).acquire
        AcquireArgs.defaults).pool).notifications + 1 ∧
    (timesOf (((initialPool ⟨"u", "pw", "gremlin-groovy", none, none, 4, 1, 16, 64⟩).acquire
        AcquireArgs.defaults).pool).conns 0 = 1 →
      ((((initialPool ⟨"u", "pw", "gremlin-groovy", none, none, 4, 1, 16, 64⟩).acquire
          AcquireArgs.defaults).pool).release 0).pool.available
        = (((initialPool ⟨"u", "pw", "gremlin-groovy", none, none, 4, 1, 16, 64⟩).acquire
          AcquireArgs.defaults).pool).available ++ [0] ∧
      ((((initialPool ⟨"u", "pw", "gremlin-groovy", none, none, 4, 1, 16, 64⟩).acquire
          AcquireArgs.defaults).pool).release 0).pool.available.count 0 = 1 ∧
      0 ∉ ((((initialPool ⟨"u", "pw", "gremlin-groovy", none, none, 4, 1, 16, 64⟩).acquire
          AcquireArgs.defaults).pool).release 0).pool.acquired) ∧
    (2 ≤ timesOf (((initialPool ⟨"u", "pw", "gremlin-groovy", none, none, 4, 1, 16, 64⟩).acquire
        AcquireArgs.defaults).pool).conns 0 →
      ((((initialPool ⟨"u", "pw", "gremlin-groovy", none, none, 4, 1, 16, 64⟩).acquire
          AcquireArgs.defaults).pool).release 0).pool.available
        = (((initialPool ⟨"u", "pw", "gremlin-groovy", none, none, 4, 1, 16, 64⟩).acquire
          AcquireArgs.defaults).pool).available ∧
      ((((initialPool ⟨"u", "pw", "gremlin-groovy", none, none, 4, 1, 16, 64⟩).acquire
          AcquireArgs.defaults).pool).release 0).pool.acquired
        = (((initialPool ⟨"u", "pw", "gremlin-groovy", none, none, 4, 1, 16, 64⟩).acquire
          AcquireArgs.defaults).pool).acquired) :=
  release_open_decrement_notify _ _ 0
    (Relation.ReflTransGen.tail Relation.ReflTransGen.refl
      (PoolStep.acquire AcquireArgs.defaults))
    (by decide) (by decide)

/-- C5 (amended): releasing a closed connection that is still present
in `_acquired` silently removes it (no error), it is not in
`_available`, and it never reappears in `_available` in any later
reachable state; but a second release of the same closed connection —
already removed by the first — raises `ValueError` from
`deque.remove` instead of being silent. -/
theorem release_closed_discards (cfg : PoolConfig) (p : ConnectionPool) (i : Nat)
    (h : Reachable cfg p) (hc : closedOf p.conns i = true) (hm : i ∈ p.acquired) :
    (p.release i).error = false ∧
    i ∉ (p.release i).pool.acquired ∧
    i ∉ (p.release i).pool.available ∧
    (∀ q, Steps (p.release i).pool q → i ∉ q.available) ∧
    ((p.release i).pool.release i).error = true := by
  have hp := inv_reachable h
  have hcs0 : closedOf (modifyConn p.conns i spend_handle) i = true := by
    rw [@closedOf_modifyConn_of spend_handle (fun _ => rfl) p.conns i i]
    exact hc
  have hiav : i ∉ p.available := fun hav => hp.disj i hav hm
  rw [release_eq_closed_mem p i hcs0 hm]
  have h2no : i ∉ p.acquired.erase i := fun h2 =>
    ((List.Nodup.mem_erase_iff hp.acq_nd).mp h2).1 rfl
  refine ⟨rfl, h2no, hiav, ?_, ?_⟩
  · exact fun q hq => (closed_not_avail_steps hq hcs0 hiav).2
  · have hX : closedOf (modifyConn
        ({ p with
          conns := modifyConn p.conns i spend_handle
          acquired := p.acquired.erase i
          notifications := p.notifications + 1 } : ConnectionPool).conns i spend_handle) i
        = true := by
      rw [@closedOf_modifyConn_of spend_handle (fun _ => rfl) _ i i]
      exact hcs0
    rw [release_eq_closed_err _ i hX h2no]

/-- Witness for C5 at a concrete input: a fresh pool's acquired
connection 0 closes under it; releasing it discards it silently. -/
theorem release_closed_discards_wit :
    ((env_close ((initialPool ⟨"u", "pw", "gremlin-groovy", none, none, 4, 1, 16, 64⟩).acquire
        AcquireArgs.defaults).pool 0).release 0).error = false ∧
    0 ∉ ((env_close ((initialPool ⟨"u", "pw", "gremlin-groovy", none, none, 4, 1, 16, 64⟩).acquire
        AcquireArgs.defaults).pool 0).release 0).pool.acquired ∧
    0 ∉ ((env_close ((initialPool ⟨"u", "pw", "gremlin-groovy", none, none, 4, 1, 16, 64⟩).acquire
        AcquireArgs.defaults).pool 0).release 0).pool.available ∧
    (∀ q, Steps ((env_close ((initialPool ⟨"u", "pw", "gremlin-groovy", none, none, 4, 1, 16, 64⟩).acquire
        AcquireArgs.defaults).pool 0).release 0).pool q → 0 ∉ q.available) ∧
    (((env_close ((initialPool ⟨"u", "pw", "gremlin-groovy", none, none, 4, 1, 16, 64⟩).acquire
        AcquireArgs.defaults).pool 0).release 0).pool.release 0).error = true :=
  release_closed_discards _ _ 0
    (Relation.ReflTransGen.tail
      (Relation.ReflTransGen.tail Relation.ReflTransGen.refl
        (PoolStep.acquire AcquireArgs.defaults))
      (PoolStep.env_close 0))
    (by decide) (by decide)

/-- Counterexample to C5 as stated: on a `max_conns = 1` pool, the
same connection is acquired twice (create, then multiplex), its
transport closes, and its two holders release it in turn; the first
release silently removes it, but the second — a protocol-legal release
of a handle obtained from acquire — raises `ValueError`, contrary to
the claim that such a release proceeds without error. -/
theorem double_release_closed_raises_cx :
    Reachable ⟨"u", "pw", "gremlin-groovy", none, none, 1, 1, 16, 64⟩
      ((env_close ((((initialPool ⟨"u", "pw", "gremlin-groovy", none, none, 1, 1, 16, 64⟩).acquire
        AcquireArgs.defaults).pool).acquire AcquireArgs.defaults).pool 0).release 0).pool ∧
    ((env_close ((((initialPool ⟨"u", "pw", "gremlin-groovy", none, none, 1, 1, 16, 64⟩).acquire
        AcquireArgs.defaults).pool).acquire AcquireArgs.defaults).pool 0).release 0).error = false ∧
    1 ≤ handlesOf ((env_close ((((initialPool ⟨"u", "pw", "gremlin-groovy", none, none, 1, 1, 16, 64⟩).acquire
        AcquireArgs.defaults).pool).acquire AcquireArgs.defaults).pool 0).release 0).pool.conns 0 ∧
    closedOf ((env_close ((((initialPool ⟨"u", "pw", "gremlin-groovy", none, none, 1, 1, 16, 64⟩).acquire
        AcquireArgs.defaults).pool).acquire AcquireArgs.defaults).pool 0).release 0).pool.conns 0 = true ∧
    (((env_close ((((initialPool ⟨"u", "pw", "gremlin-groovy", none, none, 1, 1, 16, 64⟩).acquire
        AcquireArgs.defaults).pool).acquire AcquireArgs.defaults).pool 0).release 0).pool.release 0).error
      = true := by
  refine ⟨?_, by decide, by decide, by decide, by decide⟩
  exact Relation.ReflTransGen.tail
    (Relation.ReflTransGen.tail
      (Relation.ReflTransGen.tail
        (Relation.ReflTransGen.tail Relation.ReflTransGen.refl
          (PoolStep.acquire AcquireArgs.defaults))
        (PoolStep.acquire AcquireArgs.defaults))
      (PoolStep.env_close 0))
    (PoolStep.release 0 (by decide))

/-- C7: with `_available` empty and the pool at capacity, acquire
performs one bounded pass over `_acquired`: writing the deque as
`l1 ++ [i] ++ l2` with every entry of `l1` at its share budget and `i`
the first entry below it, the pass returns `i` with its counter
incremented and leaves the deque in rotated order `l2 ++ l1 ++ [i]`
(other counters untouched); when every entry is at budget the full
rotation restores the original order, nothing is returned, and the
caller waits on the condition, after which the loop re-evaluates all
branches from the start. -/
theorem acquire_multiplex_rotation (cfg : PoolConfig) (p : ConnectionPool) (a : AcquireArgs)
    (h : Reachable cfg p) (h0 : p.available = [])
    (hcap : p.max_conns ≤ p.acquired.length) :
    (∀ l₁ : List Nat, ∀ i : Nat, ∀ l₂ : List Nat, p.acquired = l₁ ++ i :: l₂ →
      (∀ j ∈ l₁, (p.max_times_acquired : Int) ≤ timesOf p.conns j) →
      timesOf p.conns i < (p.max_times_acquired : Int) →
      (p.acquire a).conn = some i ∧
      (p.acquire a).branch = some AcqBranch.multiplex ∧
      (p.acquire a).pool.acquired = l₂ ++ l₁ ++ [i] ∧
      timesOf (p.acquire a).pool.conns i = timesOf p.conns i + 1 ∧
      (∀ j, j ≠ i → timesOf (p.acquire a).pool.conns j = timesOf p.conns j)) ∧
    ((∀ j ∈ p.acquired, (p.max_times_acquired : Int) ≤ timesOf p.conns j) →
      (p.acquire a).conn = none ∧
      (p.acquire a).pool.acquired = p.acquired ∧
      (p.acquire a).pool.conns = p.conns ∧
      (p.acquire a).pool.available = []) := by
  have hs : scan_available p.conns p.available = none := by rw [h0]; rfl
  have hlt : ¬ p.acquired.length < p.max_conns := by omega
  constructor
  · intro l₁ i l₂ hl hbig hi
    have hm0 := multiplex_scan_found p.conns p.max_times_acquired l₁ i l₂ []
      (fun j hj => not_lt.mpr (hbig j hj)) hi
    have hm : multiplex_scan p.conns p.max_times_acquired p.acquired []
        = (some i, l₂ ++ l₁ ++ [i]) := by
      rw [hl, hm0]
      simp
    have hiacq : i ∈ p.acquired := by
      rw [hl]
      exact List.mem_append_right _ (List.mem_cons_self _ _)
    have hilt : i < p.conns.length := (inv_reachable h).acq_lt i hiacq
    rw [acquire_eq_multiplex p a hs hlt hm]
    refine ⟨rfl, rfl, rfl, ?_, ?_⟩
    · exact timesOf_modifyConn_mark_self hilt
    · intro j hji
      exact timesOf_modifyConn_ne p.conns (fun he => hji he.symm)
  · intro hbig
    have hm0 := multiplex_scan_all_big p.conns p.max_times_acquired p.acquired []
      (fun j hj => not_lt.mpr (hbig j hj))
    rw [List.nil_append] at hm0
    rw [acquire_eq_wait p a hs hlt hm0]
    exact ⟨rfl, rfl, rfl, rfl⟩

/-- Witness for C7 at a concrete input: a saturated one-connection
pool, where the multiplex pass is the branch acquire takes. -/
theorem acquire_multiplex_rotation_wit :
    (∀ l₁ : List Nat, ∀ i : Nat, ∀ l₂ : List Nat,
      (((initialPool ⟨"u", "pw", "gremlin-groovy", none, none, 1, 1, 16, 64⟩).acquire
        AcquireArgs.defaults).pool).acquired = l₁ ++ i :: l₂ →
      (∀ j ∈ l₁, (((((initialPool ⟨"u", "pw", "gremlin-groovy", none, none, 1, 1, 16, 64⟩).acquire
        AcquireArgs.defaults).pool).max_times_acquired : Int))
          ≤ timesOf (((initialPool ⟨"u", "pw", "gremlin-groovy", none, none, 1, 1, 16, 64⟩).acquire
            AcquireArgs.defaults).pool).conns j) →
      timesOf (((initialPool ⟨"u", "pw", "gremlin-groovy", none, none, 1, 1, 16, 64⟩).acquire
        AcquireArgs.defaults).pool).conns i
        < (((((initialPool ⟨"u", "pw", "gremlin-groovy", none, none, 1, 1, 16, 64⟩).acquire
          AcquireArgs.defaults).pool).max_times_acquired : Int)) →
      ((((initialPool ⟨"u", "pw", "gremlin-groovy", none, none, 1, 1, 16, 64⟩).acquire
        AcquireArgs.defaults).pool).acquire AcquireArgs.defaults).conn = some i ∧
      ((((initialPool ⟨"u", "pw", "gremlin-groovy", none, none, 1, 1, 16, 64⟩).acquire
        AcquireArgs.defaults).pool).acquire AcquireArgs.defaults).branch
          = some AcqBranch.multiplex ∧
      ((((initialPool ⟨"u", "pw", "gremlin-groovy", none, none, 1, 1, 16, 64⟩).acquire
        AcquireArgs.defaults).pool).acquire AcquireArgs.defaults).pool.acquired
          = l₂ ++ l₁ ++ [i] ∧
      timesOf ((((initialPool ⟨"u", "pw", "gremlin-groovy", none, none, 1, 1, 16, 64⟩).acquire
        AcquireArgs.defaults).pool).acquire AcquireArgs.defaults).pool.conns i
          = timesOf (((initialPool ⟨"u", "pw", "gremlin-groovy", none, none, 1, 1, 16, 64⟩).acquire
            AcquireArgs.defaults).pool).conns i + 1 ∧
      (∀ j, j ≠ i →
        timesOf ((((initialPool ⟨"u", "pw", "gremlin-groovy", none, none, 1, 1, 16, 64⟩).acquire
          AcquireArgs.defaults).pool).acquire AcquireArgs.defaults).pool.conns j
            = timesOf (((initialPool ⟨"u", "pw", "gremlin-groovy", none, none, 1, 1, 16, 64⟩).acquire
              AcquireArgs.defaults).pool).conns j)) ∧
    ((∀ j ∈ (((initialPool ⟨"u", "pw", "gremlin-groovy", none, none, 1, 1, 16, 64⟩).acquire
        AcquireArgs.defaults).pool).acquired,
      (((((initialPool ⟨"u", "pw", "gremlin-groovy", none, none, 1, 1, 16, 64⟩).acquire
        AcquireArgs.defaults).pool).max_times_acquired : Int))
          ≤ timesOf (((initialPool ⟨"u", "pw", "gremlin-groovy", none, none, 1, 1, 16, 64⟩).acquire
            AcquireArgs.defaults).pool).conns j) →
      ((((initialPool ⟨"u", "pw", "gremlin-groovy", none, none, 1, 1, 16, 64⟩).acquire
        AcquireArgs.defaults).pool).acquire AcquireArgs.defaults).conn = none ∧
      ((((initialPool ⟨"u", "pw", "gremlin-groovy", none, none, 1, 1, 16, 64⟩).acquire
        AcquireArgs.defaults).pool).acquire AcquireArgs.defaults).pool.acquired
          = (((initialPool ⟨"u", "pw", "gremlin-groovy", none, none, 1, 1, 16, 64⟩).acquire
            AcquireArgs.defaults).pool).acquired ∧
      ((((initialPool ⟨"u", "pw", "gremlin-groovy", none, none, 1, 1, 16, 64⟩).acquire
        AcquireArgs.defaults).pool).acquire AcquireArgs.defaults).pool.conns
          = (((initialPool ⟨"u", "pw", "gremlin-groovy", none, none, 1, 1, 16, 64⟩).acquire
            AcquireArgs.defaults).pool).conns ∧
      ((((initialPool ⟨"u", "pw", "gremlin-groovy", none, none, 1, 1, 16, 64⟩).acquire
        AcquireArgs.defaults).pool).acquire AcquireArgs.defaults).pool.available = []) :=
  acquire_multiplex_rotation _ _ AcquireArgs.defaults
    (Relation.ReflTransGen.tail Relation.ReflTransGen.refl
      (PoolStep.acquire AcquireArgs.defaults))
    (by decide) (by decide)

/-- C4 (amended): `close` empties both collections; every popped
connection whose underlying close succeeds reports closed afterwards —
a failure of one close does not prevent the others from being issued
and taking effect — but `close` itself propagates a failure (it awaits
the close tasks through a gather without `return_exceptions`, not a
fail-tolerant join): it returns without error exactly when every
underlying close succeeds. -/
theorem close_empties_and_closes (p : ConnectionPool) (fails : Nat → Bool) :
    (p.close_with fails).pool.available = [] ∧
    (p.close_with fails).pool.acquired = [] ∧
    (∀ i ∈ p.available ++ p.acquired, fails i = false → i < p.conns.length →
      closedOf (p.close_with fails).pool.conns i = true) ∧
    ((p.close_with fails).error = false ↔
      ∀ i ∈ p.available ++ p.acquired, fails i = false) := by
  refine ⟨rfl, rfl, ?_, ?_⟩
  · intro i hi hf hlen
    exact closedOf_close_fold_mem fails _ _ i hi hf hlen
  · show (p.available ++ p.acquired).any (fun i => fails i) = false ↔ _
    rw [List.any_eq_false]
    constructor
    · intro hall i hi
      simpa using hall i hi
    · intro hall i hi
      simp [hall i hi]

/-- Counterexample to C4 as stated: when the underlying close of the
single tracked connection fails, `close` propagates the failure (so it
does not await completion of all closes regardless of outcomes), and
the connection does not end up reporting closed. -/
theorem close_propagates_failure_cx :
    0 ∈ (((initialPool ⟨"u", "pw", "gremlin-groovy", none, none, 4, 1, 16, 64⟩).acquire
      AcquireArgs.defaults).pool).acquired ∧
    ((((initialPool ⟨"u", "pw", "gremlin-groovy", none, none, 4, 1, 16, 64⟩).acquire
      AcquireArgs.defaults).pool).close_with (fun i => i == 0)).error = true ∧
    closedOf ((((initialPool ⟨"u", "pw", "gremlin-groovy", none, none, 4, 1, 16, 64⟩).acquire
      AcquireArgs.defaults).pool).close_with (fun i => i == 0)).pool.conns 0 = false := by
  refine ⟨by decide, by decide, by decide⟩

theorem anyNetUnderLock_netclose_map :
    ∀ l : List Nat, anyNetUnderLock 0 (l.map (fun _ => Ev.netClose)) = false := by
  intro l
  induction l with
  | nil => rfl
  | cons x tl ih =>
      show anyNetUnderLock 0 (Ev.netClose :: tl.map (fun _ => Ev.netClose)) = false
      unfold anyNetUnderLock
      rw [if_neg (lt_irrefl 0)]
      exact ih

/-- C9 (amended): `close` performs its network awaits without ever
taking the coordination lock, and every acquire attempt is one
uninterrupted critical section — it takes the lock once, releases it
once at the end, and the three-branch decision happens entirely inside
it; but the create branch's factory open is awaited inside that
critical section, i.e. with the lock held (the open await occurs in the
trace exactly when the create branch is taken). -/
theorem lock_discipline_traces (p : ConnectionPool) (a : AcquireArgs) (fails : Nat → Bool) :
    anyNetUnderLock 0 (p.close_with fails).events = false ∧
    (∃ mid, (p.acquire a).events = Ev.lockAcq :: (mid ++ [Ev.lockRel]) ∧
      Ev.lockAcq ∉ mid ∧ Ev.lockRel ∉ mid ∧
      (Ev.netOpen ∈ mid ↔ (p.acquire a).branch = some AcqBranch.create)) := by
  constructor
  · exact anyNetUnderLock_netclose_map (p.available ++ p.acquired)
  · cases hs : scan_available p.conns p.available with
    | some pr =>
        obtain ⟨i, rest⟩ := pr
        rw [acquire_eq_reuse p a hs]
        exact ⟨[], rfl, by decide, by decide,
          ⟨fun h => absurd h (List.not_mem_nil _),
           fun h => AcqBranch.noConfusion (Option.some.inj h)⟩⟩
    | none =>
        by_cases hlt : p.acquired.length < p.max_conns
        · rw [acquire_eq_create p a hs hlt]
          exact ⟨[Ev.netOpen], rfl, by decide, by decide,
            ⟨fun _ => rfl, fun _ => List.mem_singleton_self _⟩⟩
        · cases hm : multiplex_scan p.conns p.max_times_acquired p.acquired [] with
          | mk o acq =>
              cases o with
              | some i =>
                  rw [acquire_eq_multiplex p a hs hlt hm]
                  exact ⟨[], rfl, by decide, by decide,
                    ⟨fun h => absurd h (List.not_mem_nil _),
                     fun h => AcqBranch.noConfusion (Option.some.inj h)⟩⟩
              | none =>
                  rw [acquire_eq_wait p a hs hlt hm]
                  exact ⟨[], rfl, by decide, by decide,
                    ⟨fun h => absurd h (List.not_mem_nil _),
                     fun h => Option.noConfusion h⟩⟩

/-- Counterexample to C9 as stated: on a fresh pool, acquire takes the
create branch and its trace contains a network open await at lock
depth 1 — the connection is opened while the coordination lock is
held. -/
theorem create_branch_opens_under_lock_cx :
    (((initialPool ⟨"u", "pw", "gremlin-groovy", none, none, 4, 1, 16, 64⟩).acquire
      AcquireArgs.defaults).branch = some AcqBranch.create) ∧
    anyNetUnderLock 0 (((initialPool ⟨"u", "pw", "gremlin-groovy", none, none, 4, 1, 16, 64⟩).acquire
      AcquireArgs.defaults).events) = true := by
  refine ⟨by decide, by decide⟩

/-- C10: the per-call acquire overrides go through Python `or` against
the pool defaults — a falsy override (None or empty-string username,
password or lang, None or zero max_inflight or response_timeout) is
replaced by the configured default — and the resulting parameters are
recorded only on a connection opened by the create branch; a connection
returned by the reuse or multiplex branch keeps the options it was
originally opened with. -/
theorem acquire_override_defaults (p : ConnectionPool) (a : AcquireArgs) (i : Nat)
    (hi : (p.acquire a).conn = some i) :
    ((p.acquire a).branch = some AcqBranch.create →
      optsOf (p.acquire a).pool.conns i = some (effectiveOpts p a) ∧
      ((a.username = none ∨ a.username = some "") →
        (effectiveOpts p a).username = p.username) ∧
      ((a.password = none ∨ a.password = some "") →
        (effectiveOpts p a).password = p.password) ∧
      ((a.lang = none ∨ a.lang = some "") →
        (effectiveOpts p a).lang = p.lang) ∧
      ((a.max_inflight = none ∨ a.max_inflight = some 0) →
        (effectiveOpts p a).max_inflight = p.max_inflight) ∧
      ((a.response_timeout = none ∨ a.response_timeout = some 0) →
        (effectiveOpts p a).response_timeout = p.response_timeout)) ∧
    ((p.acquire a).branch ≠ some AcqBranch.create →
      optsOf (p.acquire a).pool.conns i = optsOf p.conns i) := by
  have hfalsy :
      ((a.username = none ∨ a.username = some "") →
        (effectiveOpts p a).username = p.username) ∧
      ((a.password = none ∨ a.password = some "") →
        (effectiveOpts p a).password = p.password) ∧
      ((a.lang = none ∨ a.lang = some "") →
        (effectiveOpts p a).lang = p.lang) ∧
      ((a.max_inflight = none ∨ a.max_inflight = some 0) →
        (effectiveOpts p a).max_inflight = p.max_inflight) ∧
      ((a.response_timeout = none ∨ a.response_timeout = some 0) →
        (effectiveOpts p a).response_timeout = p.response_timeout) := by
    refine ⟨?_, ?_, ?_, ?_, ?_⟩ <;>
      (intro h; rcases h with h | h <;> simp [effectiveOpts, pyOrStr, pyOrNat, pyOrOptNat, h])
  cases hs : scan_available p.conns p.available with
  | some pr =>
      obtain ⟨j, rest⟩ := pr
      rw [acquire_eq_reuse p a hs] at hi ⊢
      have hij : j = i := by injection hi
      subst hij
      constructor
      · intro hb
        exact AcqBranch.noConfusion (Option.some.inj hb)
      · intro _
        exact @optsOf_modifyConn_of acquire_mark (fun _ => rfl) p.conns j j
  | none =>
      by_cases hlt : p.acquired.length < p.max_conns
      · rw [acquire_eq_create p a hs hlt] at hi ⊢
        have hij : p.conns.length = i := by injection hi
        subst hij
        constructor
        · intro _
          refine ⟨?_, hfalsy⟩
          show optsOf
            (p.conns ++ [acquire_mark (ConnectionPool.get_connection (effectiveOpts p a))])
            p.conns.length = some (effectiveOpts p a)
          rw [optsOf_concat_self]
          rfl
        · intro hb
          exact absurd rfl hb
      · cases hm : multiplex_scan p.conns p.max_times_acquired p.acquired [] with
        | mk o acq =>
            cases o with
            | some j =>
                rw [acquire_eq_multiplex p a hs hlt hm] at hi ⊢
                have hij : j = i := by injection hi
                subst hij
                constructor
                · intro hb
                  exact AcqBranch.noConfusion (Option.some.inj hb)
                · intro _
                  exact @optsOf_modifyConn_of acquire_mark (fun _ => rfl) p.conns j j
            | none =>
                rw [acquire_eq_wait p a hs hlt hm] at hi
                cases hi

/-- Witness for C10 at a concrete input: a create-branch acquire with
falsy overrides (empty-string username, zero max_inflight) records the
pool defaults on the newly opened connection. -/
theorem acquire_override_defaults_wit :
    (((initialPool ⟨"u", "pw", "gremlin-groovy", none, none, 4, 1, 16, 64⟩).acquire
        ⟨some "", none, none, none, some 0, some 0⟩).branch = some AcqBranch.create →
      optsOf ((initialPool ⟨"u", "pw", "gremlin-groovy", none, none, 4, 1, 16, 64⟩).acquire
          ⟨some "", none, none, none, some 0, some 0⟩).pool.conns 0
        = some (effectiveOpts (initialPool ⟨"u", "pw", "gremlin-groovy", none, none, 4, 1, 16, 64⟩)
            ⟨some "", none, none, none, some 0, some 0⟩) ∧
      (((⟨some "", none, none, none, some 0, some 0⟩ : AcquireArgs).username = none ∨
          (⟨some "", none, none, none, some 0, some 0⟩ : AcquireArgs).username = some "") →
        (effectiveOpts (initialPool ⟨"u", "pw", "gremlin-groovy", none, none, 4, 1, 16, 64⟩)
          ⟨some "", none, none, none, some 0, some 0⟩).username
          = (initialPool ⟨"u", "pw", "gremlin-groovy", none, none, 4, 1, 16, 64⟩).username) ∧
      (((⟨some "", none, none, none, some 0, some 0⟩ : AcquireArgs).password = none ∨
          (⟨some "", none, none, none, some 0, some 0⟩ : AcquireArgs).password = some "") →
        (effectiveOpts (initialPool ⟨"u", "pw", "gremlin-groovy", none, none, 4, 1, 16, 64⟩)
          ⟨some "", none, none, none, some 0, some 0⟩).password
          = (initialPool ⟨"u", "pw", "gremlin-groovy", none, none, 4, 1, 16, 64⟩).password) ∧
      (((⟨some "", none, none, none, some 0, some 0⟩ : AcquireArgs).lang = none ∨
          (⟨some "", none, none, none, some 0, some 0⟩ : AcquireArgs).lang = some "") →
        (effectiveOpts (initialPool ⟨"u", "pw", "gremlin-groovy", none, none, 4, 1, 16, 64⟩)
          ⟨some "", none, none, none, some 0, some 0⟩).lang
          = (initialPool ⟨"u", "pw", "gremlin-groovy", none, none, 4, 1, 16, 64⟩).lang) ∧
      (((⟨some "", none, none, none, some 0, some 0⟩ : AcquireArgs).max_inflight = none ∨
          (⟨some "", none, none, none, some 0, some 0⟩ : AcquireArgs).max_inflight = some 0) →
        (effectiveOpts (initialPool ⟨"u", "pw", "gremlin-groovy", none, none, 4, 1, 16, 64⟩)
          ⟨some "", none, none, none, some 0, some 0⟩).max_inflight
          = (initialPool ⟨"u", "pw", "gremlin-groovy", none, none, 4, 1, 16, 64⟩).max_inflight) ∧
      (((⟨some "", none, none, none, some 0, some 0⟩ : AcquireArgs).response_timeout = none ∨
          (⟨some "", none, none, none, some 0, some 0⟩ : AcquireArgs).response_timeout = some 0) →
        (effectiveOpts (initialPool ⟨"u", "pw", "gremlin-groovy", none, none, 4, 1, 16, 64⟩)
          ⟨some "", none, none, none, some 0, some 0⟩).response_timeout
          = (initialPool ⟨"u", "pw", "gremlin-groovy", none, none, 4, 1, 16, 64⟩).response_timeout)) ∧
    (((initialPool ⟨"u", "pw", "gremlin-groovy", none, none, 4, 1, 16, 64⟩).acquire
        ⟨some "", none, none, none, some 0, some 0⟩).branch ≠ some AcqBranch.create →
      optsOf ((initialPool ⟨"u", "pw", "gremlin-groovy", none, none, 4, 1, 16, 64⟩).acquire
          ⟨some "", none, none, none, some 0, some 0⟩).pool.conns 0
        = optsOf (initialPool ⟨"u", "pw", "gremlin-groovy", none, none, 4, 1, 16, 64⟩).conns 0) :=
  acquire_override_defaults _ ⟨some "", none, none, none, some 0, some 0⟩ 0 (by decide)
